import Mathlib

/-!
# wsgo: frame codec, receive loop, dispatcher and handshake of the WebSocket server

A shallow embedding of `websocket/socket.go`, `eventemitter/eventemitter.go` and
`websocket/websocket.go`.

Modelling conventions.

* A byte is a natural number below 256; a byte slice is a `List Nat`.  Where the
  source narrows an integer to `uint8`, `uint16` or `uint64` the reduction
  modulo `2 ^ w` is written out.
* Go's `int` is the 64-bit two's complement integer: the one conversion of the
  source that can wrap, `int(binary.BigEndian.Uint64(..))`, is `intOfUint64`.
* The stream behind `socket.brw` is the finite list of bytes still unread,
  followed by end of file.  `io.ReadFull` either delivers exactly the bytes asked
  for or fails, having drained what was left.
* `socket.ee.Emit(key, args)` made by the receive loop is recorded as an `Event`
  appended to the trace of the reader; the callbacks that the dispatcher runs are
  taken not to touch the stream the loop reads.
* A run-time panic (`make([]byte, n)` with a count that is negative or too
  large) is an outcome of its own, distinct from the `return` of the loop.
* The dispatcher is modelled with the memory of its slices (`EventEmitter`), and
  as a map from keys to lists (`Registry`) where no two keys share an array, as
  in a socket.  The application callbacks registered on a socket are numbered
  and a call of one is recorded; what the application does inside a callback is
  not part of the model.
* The results of the writes to the stream and of `Hijack` are inputs of the
  operations that make them.
-/

namespace Wsgo

/-! ## Constants (`socket.go`, lines 47-56) -/

def finalFragmentOfMessage : Nat := 128
def isMasked : Nat := 128
def payload0Max : Nat := 125
def payloadNext2Byte : Nat := 126
def payloadNext8Byte : Nat := 127
def byte2MaxValue : Nat := 65535
def continuationFragment : Nat := 0
def textFragment : Nat := 1
def connectionCloseFragment : Nat := 8
def maxWritePayloadSize : Nat := 4096

/-! ## Bit helpers (`socket.go`, lines 276-287) -/

/-- The function `valueOfBit`: `(b & (1 << index)) != 0`, the shifted constant
being a byte. -/
def valueOfBit (b : Nat) (index : Nat) : Bool :=
  (b &&& ((1 <<< index) % 256)) != 0

/-- The function `extractRight4Bit`: `b & 0x0F`. -/
def extractRight4Bit (b : Nat) : Nat :=
  b &&& 0x0F

/-- The function `fragmentType`: the low four bits of the first header byte. -/
def fragmentType (b : Nat) : Nat :=
  extractRight4Bit b

/-! ## `encoding/binary` big-endian helpers and integer conversions -/

/-- Go's `binary.BigEndian.Uint16` on a 2-byte slice. -/
def uint16BE (b : List Nat) : Nat :=
  b.getD 0 0 * 256 + b.getD 1 0

/-- Go's `binary.BigEndian.Uint64` on an 8-byte slice. -/
def uint64BE (b : List Nat) : Nat :=
  b.getD 0 0 * 2 ^ 56 + b.getD 1 0 * 2 ^ 48 + b.getD 2 0 * 2 ^ 40 + b.getD 3 0 * 2 ^ 32
    + b.getD 4 0 * 2 ^ 24 + b.getD 5 0 * 2 ^ 16 + b.getD 6 0 * 2 ^ 8 + b.getD 7 0

/-- Go's `binary.BigEndian.PutUint16`: the two bytes of `v`, high byte first. -/
def putUint16 (v : Nat) : List Nat :=
  [v / 2 ^ 8 % 256, v % 256]

/-- Go's `binary.BigEndian.PutUint64`: the eight bytes of `v`, high byte first. -/
def putUint64 (v : Nat) : List Nat :=
  [v / 2 ^ 56 % 256, v / 2 ^ 48 % 256, v / 2 ^ 40 % 256, v / 2 ^ 32 % 256,
   v / 2 ^ 24 % 256, v / 2 ^ 16 % 256, v / 2 ^ 8 % 256, v % 256]

/-- The conversion `int(u)` of a `uint64` to the 64-bit signed `int`: values from
`2 ^ 63` on wrap to negative numbers. -/
def intOfUint64 (u : Nat) : Int :=
  if u % 2 ^ 64 < 2 ^ 63 then ((u % 2 ^ 64 : Nat) : Int) else ((u % 2 ^ 64 : Nat) : Int) - 2 ^ 64

/-! ## Outbound fragmentation (`Socket.toFragments`, lines 201-265) -/

/-- The value `int(math.Ceil(float64(messageLen) / float64(writePayloadSize)))`.
Both operands are exact in `float64` and the rounded quotient has the same
ceiling as the exact one for every length below `2 ^ 53`, so the fragment count
is the integer ceiling of the quotient. -/
def fragmentCountOf (messageLen writePayloadSize : Nat) : Nat :=
  (messageLen + writePayloadSize - 1) / writePayloadSize

/-- The loop variables of `toFragments` that change from one round to the next. -/
structure FragLoop where
  unreadedMessageLen : Nat
  fragments : List (List Nat)
deriving DecidableEq, Repr

/-- The header that one round of the loop builds (lines 212-249), from the
fragment count, the round index and the fragment size. -/
def fragmentHeader (fragmentCount currentFragmentIndex fragmentSize : Nat) : List Nat :=
  let firstByteInt : Nat :=
    ((if (currentFragmentIndex : Int) = (fragmentCount : Int) - 1
        then finalFragmentOfMessage else 0)
      + (if currentFragmentIndex = 0 then 1 else 0)) % 256
  if fragmentSize ≤ payload0Max then
    [firstByteInt, fragmentSize % 256]
  else if fragmentSize ≤ byte2MaxValue then
    [firstByteInt, payloadNext2Byte] ++ putUint16 (fragmentSize % 2 ^ 16)
  else
    [firstByteInt, payloadNext8Byte] ++ putUint64 (fragmentSize % 2 ^ 64)

/-- One round of the `for currentFragmentIndex := range fragmentCount` loop. -/
def toFragmentsRound (writePayloadSize : Nat) (messageByte : List Nat) (fragmentCount : Nat)
    (st : FragLoop) (currentFragmentIndex : Nat) : FragLoop :=
  let messageLen := messageByte.length
  let fragmentSize :=
    if st.unreadedMessageLen < writePayloadSize then st.unreadedMessageLen else writePayloadSize
  let header := fragmentHeader fragmentCount currentFragmentIndex fragmentSize
  let taken := (messageByte.drop (messageLen - st.unreadedMessageLen)).take fragmentSize
  let fragment := header ++ taken
  { unreadedMessageLen := st.unreadedMessageLen - fragmentSize
    fragments := st.fragments ++ [fragment] }

/-- The method `Socket.toFragments`, for a socket whose `writePayloadSize` is the
first argument and a message given by its bytes. -/
def toFragments (writePayloadSize : Nat) (message : List Nat) : List (List Nat) :=
  let messageByte := message
  let messageLen := messageByte.length
  let fragmentCount := fragmentCountOf messageLen writePayloadSize
  ((List.range fragmentCount).foldl
    (toFragmentsRound writePayloadSize messageByte fragmentCount)
    { unreadedMessageLen := messageLen, fragments := [] }).fragments

/-- The bytes that round `i` of the loop takes from the message. -/
def chunkAt (writePayloadSize : Nat) (message : List Nat) (i : Nat) : List Nat :=
  (message.drop (i * writePayloadSize)).take writePayloadSize

/-- The frame that round `i` of the loop appends: the header for the size of the
bytes taken, followed by those bytes. -/
def fragmentAt (writePayloadSize : Nat) (message : List Nat) (i : Nat) : List Nat :=
  fragmentHeader (fragmentCountOf message.length writePayloadSize) i
      (chunkAt writePayloadSize message i).length
    ++ chunkAt writePayloadSize message i

/-! ### Reading a produced frame back -/

/-- Size of the header of an outbound frame, read off the length indicator in the
low seven bits of its second byte: 2, 4 or 10 bytes. -/
def frameHeaderSize (frame : List Nat) : Nat :=
  let l := frame.getD 1 0 % 128
  if l ≤ payload0Max then 2 else if l = payloadNext2Byte then 4 else 10

/-- The payload of an outbound frame: the bytes after its header. -/
def framePayload (frame : List Nat) : List Nat :=
  frame.drop (frameHeaderSize frame)

/-- The fin flag of a frame: bit 7 of byte 0. -/
def frameFin (frame : List Nat) : Bool :=
  valueOfBit (frame.getD 0 0) 7

/-! ## The receive loop (`Socket.reader`, lines 117-192, and `readBytes`) -/

/-- The errors handed to `Emit("error", ..)` by the receive loop: the two
failures of `io.ReadFull` at the end of the stream, and
`errors.New("Socket is not masked")`. -/
inductive Err
| eof
| unexpectedEOF
| notMasked
deriving DecidableEq, Repr

/-- One call `socket.ee.Emit(key, args)` made by the receive loop. -/
inductive Event
| error (err : Err)
| close
| message (text : List Nat)
deriving DecidableEq, Repr

/-- Result of `readBytes`: the buffer and the stream left, a read error and the
stream left, or the panic of `make([]byte, n)`. -/
inductive ReadResult
| ok (buf rest : List Nat)
| fail (err : Err) (rest : List Nat)
| panicked
deriving DecidableEq, Repr

/-- The largest size the Go runtime allocates on a 64-bit platform (`maxAlloc`,
`2 ^ 48` bytes): `make([]byte, n)` panics for a negative `n` and for an `n` above
it.  Running out of memory below that size depends on the machine and is not
modelled. -/
def maxAlloc : Nat := 2 ^ 48

/-- The call `io.ReadFull(reader, buf)` for a buffer of `n` bytes: exactly `n`
bytes, or a failure that has drained the stream.  A count of zero succeeds
without reading. -/
def readFull (reader : List Nat) (n : Nat) : ReadResult :=
  if n ≤ reader.length then .ok (reader.take n) (reader.drop n)
  else .fail (if reader.isEmpty then .eof else .unexpectedEOF) []

/-- The function `readBytes` (lines 267-274): `make([]byte, n)`, which panics for
a count that is negative or above `maxAlloc`, followed by `io.ReadFull`. -/
def readBytes (reader : List Nat) (n : Int) : ReadResult :=
  if n < 0 ∨ (maxAlloc : Int) < n then .panicked
  else readFull reader n.toNat

/-- Result of decoding the payload length. -/
inductive LenResult
| ok (payloadLen : Int) (rest : List Nat)
| fail (err : Err) (rest : List Nat)
| panicked
deriving DecidableEq, Repr

/-- Lines 146-168 of the receive loop: from the length indicator `len0` (mask bit
already removed) choose how many more bytes to read, read them, and convert them
to the `int` `payloadLen`. -/
def readPayloadLen (brw : List Nat) (len0 : Nat) : LenResult :=
  let nextReadLen : Int :=
    if len0 ≤ payload0Max then 0 else if len0 = payloadNext2Byte then 2 else 8
  if nextReadLen > 0 then
    match readBytes brw nextReadLen with
    | .panicked => .panicked
    | .fail err rest => .fail err rest
    | .ok payloadLenInByte rest =>
      if nextReadLen = 2 then .ok (uint16BE payloadLenInByte : Nat) rest
      else .ok (intOfUint64 (uint64BE payloadLenInByte)) rest
  else .ok (len0 : Nat) brw

/-- The unmasking loop of lines 181-183, from position `i` on:
`fragment[i] ^= mask[i%4]`. -/
def unmaskFrom (mask : List Nat) : Nat → List Nat → List Nat
| _, [] => []
| i, b :: bs => (b ^^^ mask.getD (i % 4) 0) :: unmaskFrom mask (i + 1) bs

/-- The unmasking step of the receive loop applied to a whole fragment. -/
def unmask (mask fragment : List Nat) : List Nat :=
  unmaskFrom mask 0 fragment

/-- How an iteration of the receive loop ends: it goes on to the next iteration,
it leaves the loop through `return`, or the goroutine panics. -/
inductive Status
| running
| returned
| panicked
deriving DecidableEq, Repr

/-- State of the receive loop between two iterations: the unread bytes of the
stream, the reassembly buffer `message`, and the trace of the emits made. -/
structure ReaderState where
  brw : List Nat
  message : List Nat
  emitted : List Event
deriving DecidableEq, Repr

/-- One iteration of the `for` loop of `Socket.reader` (lines 120-190). -/
def readerIter (s : ReaderState) : Status × ReaderState :=
  match readBytes s.brw 2 with
  | .panicked => (.panicked, s)
  | .fail err rest =>
    (.running, { s with brw := rest, emitted := s.emitted ++ [.error err] })
  | .ok meta rest =>
    let endOfMessage := valueOfBit (meta.getD 0 0) 7
    let fT := fragmentType (meta.getD 0 0)
    if fT = connectionCloseFragment then
      (.returned, { brw := rest, message := [], emitted := s.emitted ++ [.close] })
    else
      let len0 := meta.getD 1 0
      if len0 < isMasked then
        (.running, { s with brw := rest, emitted := s.emitted ++ [.error .notMasked] })
      else
        let len0 := len0 - isMasked
        match readPayloadLen rest len0 with
        | .panicked => (.panicked, { s with brw := rest })
        | .fail err rest1 =>
          (.running, { s with brw := rest1, emitted := s.emitted ++ [.error err] })
        | .ok payloadLen rest1 =>
          match readBytes rest1 4 with
          | .panicked => (.panicked, { s with brw := rest1 })
          | .fail err rest2 =>
            (.running, { s with brw := rest2, emitted := s.emitted ++ [.error err] })
          | .ok mask rest2 =>
            match readBytes rest2 payloadLen with
            | .panicked => (.panicked, { s with brw := rest2 })
            | .fail err rest3 =>
              (.running, { s with brw := rest3, emitted := s.emitted ++ [.error err] })
            | .ok fragment rest3 =>
              let fragment := unmask mask fragment
              let message := s.message ++ fragment
              if endOfMessage then
                (.running,
                  { brw := rest3, message := [], emitted := s.emitted ++ [.message message] })
              else
                (.running, { brw := rest3, message := message, emitted := s.emitted })

/-- The receive loop run for at most `fuel` iterations.  The status is `running`
when the loop has not ended within them. -/
def reader : Nat → ReaderState → Status × ReaderState
| 0, s => (.running, s)
| fuel + 1, s =>
  match readerIter s with
  | (.running, s') => reader fuel s'
  | (st, s') => (st, s')

/-- The state in which `Socket.reader` enters its loop: `message := []byte{}`,
nothing emitted yet. -/
def readerInit (brw : List Nat) : ReaderState :=
  { brw := brw, message := [], emitted := [] }

/-- The texts of the "message" events of a trace, in order. -/
def messageEvents : List Event → List (List Nat)
| [] => []
| .message text :: es => text :: messageEvents es
| _ :: es => messageEvents es

/-- The number of "error" events of a trace. -/
def errorCount : List Event → Nat
| [] => 0
| .error _ :: es => errorCount es + 1
| _ :: es => errorCount es

/-- The number of "close" events of a trace. -/
def closeCount : List Event → Nat
| [] => 0
| .close :: es => closeCount es + 1
| _ :: es => closeCount es

/-! ### Masked frames as the peer sends them -/

/-- The three ways a frame header can carry the payload length. -/
inductive LenForm
| short
| ext16
| ext64
deriving DecidableEq, Repr

/-- Masking as the protocol defines it: octet `i` of the transformed data is octet
`i` of the original data XOR octet `i mod 4` of the masking key. -/
def maskPayload (key payload : List Nat) : List Nat :=
  (List.range payload.length).map (fun i => payload.getD i 0 ^^^ key.getD (i % 4) 0)

/-- A masked frame as the peer builds it: its first byte (fin, reserved bits,
opcode), the form of its length field, its 4-byte masking key and its payload,
the application bytes before masking. -/
structure MaskedFrame where
  first : Nat
  form : LenForm
  key : List Nat
  payload : List Nat
deriving DecidableEq, Repr

/-- The bytes of a masked frame: header with the mask bit set, extended length,
masking key, and the payload masked with the key. -/
def MaskedFrame.wire (f : MaskedFrame) : List Nat :=
  (match f.form with
    | .short => [f.first, isMasked + f.payload.length]
    | .ext16 => [f.first, isMasked + payloadNext2Byte] ++ putUint16 f.payload.length
    | .ext64 => [f.first, isMasked + payloadNext8Byte] ++ putUint64 f.payload.length)
  ++ f.key ++ maskPayload f.key f.payload

/-- A masked frame is well formed when its first byte is a byte, its key is four
bytes, its payload is made of bytes and its length field can hold the payload
length (for the 8-byte form, a length for which a buffer can be made). -/
def MaskedFrame.WellFormed (f : MaskedFrame) : Prop :=
  f.first < 256 ∧ f.key.length = 4 ∧ (∀ b ∈ f.key, b < 256) ∧ (∀ b ∈ f.payload, b < 256) ∧
  (match f.form with
    | .short => f.payload.length ≤ 125
    | .ext16 => f.payload.length < 2 ^ 16
    | .ext64 => f.payload.length ≤ maxAlloc)

instance (f : MaskedFrame) : Decidable f.WellFormed := by
  unfold MaskedFrame.WellFormed
  cases f.form <;> exact inferInstance

/-- The fin flag of a masked frame. -/
def MaskedFrame.fin (f : MaskedFrame) : Bool :=
  valueOfBit f.first 7

/-- The byte stream that carries a sequence of frames. -/
def wireOf (fs : List MaskedFrame) : List Nat :=
  (fs.map MaskedFrame.wire).flatten

/-- The maximal runs of consecutive frames that end in a frame with fin set, given
the frames `cur` of the run that is open; a trailing run without a fin frame is
not complete and is left out. -/
def completeRunsFrom : List MaskedFrame → List MaskedFrame → List (List MaskedFrame)
| _, [] => []
| cur, f :: fs =>
  if f.fin then (cur ++ [f]) :: completeRunsFrom [] fs
  else completeRunsFrom (cur ++ [f]) fs

/-- The messages a sequence of frames carries: for each complete run, the
concatenation of the payloads of its frames, in order. -/
def expectedMessages (fs : List MaskedFrame) : List (List Nat) :=
  (completeRunsFrom [] fs).map (fun run => (run.map MaskedFrame.payload).flatten)

/-! ### Parsing unmasked frames with the header rule of the receive loop -/

/-- One unmasked frame read with the header rule of `Socket.reader`: fin is bit 7
of byte 0, the length indicator is the low seven bits of byte 1, the length is
decoded by `readPayloadLen`, no masking key follows, and the payload is the next
bytes of that length.  The result is the fin flag, the payload and the bytes
left. -/
def parseFrame (bytes : List Nat) : Option (Bool × List Nat × List Nat) :=
  match readBytes bytes 2 with
  | .ok meta rest =>
    match readPayloadLen rest (meta.getD 1 0 % 128) with
    | .ok payloadLen rest1 =>
      if payloadLen < 0 then none
      else
        match readFull rest1 payloadLen.toNat with
        | .ok payload rest2 => some (valueOfBit (meta.getD 0 0) 7, payload, rest2)
        | _ => none
    | _ => none
  | _ => none

/-- Frames parsed one after the other until the bytes are used up, at most `fuel`
of them. -/
def parseFramesFuel : Nat → List Nat → Option (List (Bool × List Nat))
| _, [] => some []
| 0, _ :: _ => none
| fuel + 1, b :: bs =>
  match parseFrame (b :: bs) with
  | none => none
  | some (fin, payload, rest) =>
    (parseFramesFuel fuel rest).map (fun frames => (fin, payload) :: frames)

/-- All frames of a byte sequence; every frame takes at least two bytes, so the
length of the sequence is fuel enough. -/
def parseFrames (bytes : List Nat) : Option (List (Bool × List Nat)) :=
  parseFramesFuel bytes.length bytes

end Wsgo
namespace Wsgo

/-! ## The event dispatcher (`eventemitter/eventemitter.go`)

A slice is a window on a backing array; the emitter is modelled with the memory
its slices live in.  `On` keeps the slice it is handed and appends in place while
the capacity allows, `Off` shifts the array in place, so keys whose slices share
an array see each other's writes.  The type `L` of listeners is a parameter; a
listener that changes the emitter while `Emit` runs is outside the model. -/

/-- The two errors of the dispatcher: `errors.New("Not listener found")` of
`listeners` and `errors.New("No listener found")` of `Off`. -/
inductive EmitterError
| notListenerFound
| noListenerFound
deriving DecidableEq, Repr

/-- A slice header: the number of the backing array, the offset of the first
element in it, the length and the capacity. -/
structure Slice where
  arr : Nat
  off : Nat
  len : Nat
  cap : Nat
deriving DecidableEq, Repr

/-- The type `EventEmitter`: `events map[string][]Listener`, together with the
backing arrays, each given by its cells that have been written. -/
structure EventEmitter (L : Type) where
  arrays : List (List L)
  events : String → Option Slice

/-- The function `New`: an emitter with an empty map. -/
def EventEmitter.New {L : Type} : EventEmitter L :=
  { arrays := [], events := fun _ => none }

/-- The elements of a slice. -/
def EventEmitter.read {L : Type} (ee : EventEmitter L) (s : Slice) : List L :=
  ((ee.arrays.getD s.arr []).drop s.off).take s.len

/-- The cells of an array after `xs` has been written from position `p` on. -/
def overwrite {L : Type} (cells : List L) (p : Nat) (xs : List L) : List L :=
  cells.take p ++ xs ++ cells.drop (p + xs.length)

/-- The built-in `append(s, xs...)`: when the capacity of `s` allows, the elements
are written into the array of `s` after its last element; otherwise a new array
is made, of the capacity `grow` chooses, holding the elements of `s` and `xs`. -/
def EventEmitter.append {L : Type} (grow : Nat → Nat → Nat) (ee : EventEmitter L) (s : Slice)
    (xs : List L) : EventEmitter L × Slice :=
  if s.len + xs.length ≤ s.cap then
    ({ ee with
        arrays := ee.arrays.set s.arr (overwrite (ee.arrays.getD s.arr []) (s.off + s.len) xs) },
      { s with len := s.len + xs.length })
  else
    ({ ee with arrays := ee.arrays ++ [ee.read s ++ xs] },
      { arr := ee.arrays.length, off := 0, len := s.len + xs.length,
        cap := grow s.cap (s.len + xs.length) })

/-- The assignment `ee.events[key] = listeners`. -/
def EventEmitter.store {L : Type} (ee : EventEmitter L) (key : String) (listeners : Slice) :
    EventEmitter L :=
  { ee with events := fun k => if k = key then some listeners else ee.events k }

/-- The method `On` (lines 14-21) called as `ee.On(key, _listeners...)`, with a
slice of the caller. -/
def EventEmitter.On {L : Type} (grow : Nat → Nat → Nat) (ee : EventEmitter L) (key : String)
    (_listeners : Slice) : EventEmitter L :=
  match ee.events key with
  | some listeners =>
    ((ee.append grow listeners (ee.read _listeners)).1).store key
      (ee.append grow listeners (ee.read _listeners)).2
  | none => ee.store key _listeners

/-- The method `On` called as `ee.On(key, l1, .., ln)`: the arguments are put in a
new array of their number and `On` gets the slice of it. -/
def EventEmitter.OnArgs {L : Type} (grow : Nat → Nat → Nat) (ee : EventEmitter L)
    (key : String) (args : List L) : EventEmitter L :=
  EventEmitter.On grow { ee with arrays := ee.arrays ++ [args] } key
    { arr := ee.arrays.length, off := 0, len := args.length, cap := args.length }

/-- The loop of `indexOf` from position `index` on; `pointer` is
`fmt.Sprintf("%v", listener)`. -/
def EventEmitter.indexOfFrom {L : Type} (pointer : L → String) (_listener : L) :
    Nat → List L → Int
| _, [] => -1
| index, listener :: rest =>
  if pointer listener = pointer _listener then (index : Int)
  else EventEmitter.indexOfFrom pointer _listener (index + 1) rest

/-- The method `indexOf` (lines 23-34): the position of the first listener with
the same printed representation as `_listener`, or `-1`. -/
def EventEmitter.indexOf {L : Type} (pointer : L → String) (listeners : List L) (_listener : L) :
    Int :=
  EventEmitter.indexOfFrom pointer _listener 0 listeners

/-- The method `Clear` (lines 36-40): every key is deleted. -/
def EventEmitter.Clear {L : Type} (ee : EventEmitter L) : EventEmitter L :=
  { ee with events := fun _ => none }

/-- The method `listeners` (lines 60-67): the slice of a key, with an error when
the key is absent or its slice is empty. -/
def EventEmitter.listeners {L : Type} (ee : EventEmitter L) (key : String) :
    Option Slice × Option EmitterError :=
  match ee.events key with
  | some listeners =>
    if listeners.len > 0 then (some listeners, none)
    else (some listeners, some .notListenerFound)
  | none => (none, some .notListenerFound)

/-- The method `Off` (lines 42-58): the error returned, if any, and the emitter
afterwards.  The slice stored is `append(listeners[:index], listeners[index+1:]...)`. -/
def EventEmitter.Off {L : Type} (grow : Nat → Nat → Nat) (pointer : L → String)
    (ee : EventEmitter L) (key : String) (_listener : L) :
    Option EmitterError × EventEmitter L :=
  match ee.listeners key with
  | (_, some err) => (some err, ee)
  | (none, none) => (some .notListenerFound, ee)
  | (some listeners, none) =>
    let index := EventEmitter.indexOf pointer (ee.read listeners) _listener
    if index = -1 then (some .noListenerFound, ee)
    else
      let head : Slice := { listeners with len := index.toNat }
      let tail : Slice :=
        { listeners with
            off := listeners.off + (index.toNat + 1)
            len := listeners.len - (index.toNat + 1)
            cap := listeners.cap - (index.toNat + 1) }
      (none,
        ((ee.append grow head (ee.read tail)).1).store key (ee.append grow head (ee.read tail)).2)

/-- The method `Emit` (lines 69-80) on a program state of type `σ`: `call` is what
calling a listener with the arguments does to the state.  The listeners are
called in the order of the slice of the key. -/
def EventEmitter.Emit {L A σ : Type} (call : L → List A → σ → σ) (ee : EventEmitter L)
    (key : String) (_args : List A) (st : σ) : Option EmitterError × σ :=
  match ee.listeners key with
  | (_, some err) => (some err, st)
  | (none, none) => (some .notListenerFound, st)
  | (some listeners, none) =>
    (none, (ee.read listeners).foldl (fun st listener => call listener _args st) st)

/-- Calling a listener recorded in a log: the listener and the arguments it got. -/
def recordCall {L A : Type} (listener : L) (args : List A) (log : List (L × List A)) :
    List (L × List A) :=
  log ++ [(listener, args)]

/-- The listeners handed to `On` for `key` in a sequence of `On` calls, in the
order of the calls and, within a call, of its arguments. -/
def registeredFor {L : Type} (key : String) : List (String × List L) → List L
| [] => []
| c :: calls => if c.1 = key then c.2 ++ registeredFor key calls else registeredFor key calls

/-- The emitter after `ls := make([]Listener, 0, 4); ls = append(ls, f)`,
`ee.On("a", ls...)`, `ee.On("b", ls...)`, `ee.On("a", g)`, `ee.On("b", h)`: the
slices of both keys are windows on the one array of `ls`.  No `append` in it
outgrows a capacity, so the choice of new capacities plays no part. -/
def sharedCapacityEmitter : EventEmitter String :=
  ((((({ arrays := [["f"]], events := fun _ => none } : EventEmitter String).On
    (fun _ n => n) "a" { arr := 0, off := 0, len := 1, cap := 4 }).On
    (fun _ n => n) "b" { arr := 0, off := 0, len := 1, cap := 4 }).OnArgs
    (fun _ n => n) "a" ["g"]).OnArgs (fun _ n => n) "b" ["h"])

/-- The emitter after `ls := []Listener{f, g, h}`, `ee.On("a", ls...)`,
`ee.On("b", ls...)`: both keys hold the slice `ls`. -/
def sharedSliceEmitter : EventEmitter String :=
  (({ arrays := [["f", "g", "h"]], events := fun _ => none } : EventEmitter String).On
    (fun _ n => n) "a" { arr := 0, off := 0, len := 3, cap := 3 }).On
    (fun _ n => n) "b" { arr := 0, off := 0, len := 3, cap := 3 }

/-- Every slice of the map lies within the written cells of an array of the
emitter and is no longer than its capacity. -/
def EventEmitter.Valid {L : Type} (ee : EventEmitter L) : Prop :=
  ∀ key s, ee.events key = some s →
    s.arr < ee.arrays.length ∧ s.off + s.len ≤ (ee.arrays.getD s.arr []).length ∧ s.len ≤ s.cap

/-- No two keys have their slices in the same array. -/
def EventEmitter.Unshared {L : Type} (ee : EventEmitter L) : Prop :=
  ∀ k1 k2 s1 s2, k1 ≠ k2 → ee.events k1 = some s1 → ee.events k2 = some s2 → s1.arr ≠ s2.arr

/-! ### The dispatcher as a map from keys to lists

What an emitter is when no two keys share an array: the map from each key to the
elements of its slice. -/

/-- A map from keys to lists of listeners. -/
structure Registry (L : Type) where
  events : String → Option (List L)

/-- The registry of a new emitter. -/
def Registry.New {L : Type} : Registry L :=
  { events := fun _ => none }

/-- The list of a key replaced. -/
def Registry.store {L : Type} (ee : Registry L) (key : String) (listeners : List L) :
    Registry L :=
  { events := fun k => if k = key then some listeners else ee.events k }

/-- The method `On` on a registry: the listeners are put after those of the key. -/
def Registry.On {L : Type} (ee : Registry L) (key : String) (_listeners : List L) :
    Registry L :=
  match ee.events key with
  | some listeners => ee.store key (listeners ++ _listeners)
  | none => ee.store key _listeners

/-- The method `Clear` on a registry: every key is deleted. -/
def Registry.Clear {L : Type} (_ee : Registry L) : Registry L :=
  { events := fun _ => none }

/-- The method `listeners` on a registry. -/
def Registry.listeners {L : Type} (ee : Registry L) (key : String) :
    List L × Option EmitterError :=
  match ee.events key with
  | some listeners =>
    if listeners.length > 0 then (listeners, none) else (listeners, some .notListenerFound)
  | none => ([], some .notListenerFound)

/-- The method `Emit` on a registry and a program state of type `σ`: `call` is
what calling a listener with the arguments does to the state.  The listeners
called are those of the list read at the start. -/
def Registry.Emit {L A σ : Type} (call : L → List A → σ → σ) (ee : Registry L)
    (key : String) (_args : List A) (st : σ) : Option EmitterError × σ :=
  match ee.listeners key with
  | (_, some err) => (some err, st)
  | (listeners, none) =>
    (none, listeners.foldl (fun st listener => call listener _args st) st)

/-- The registry after a sequence of `On` calls, each a key with its listeners. -/
def Registry.afterOn {L : Type} (ee : Registry L) (calls : List (String × List L)) :
    Registry L :=
  calls.foldl (fun ee c => ee.On c.1 c.2) ee

/-- The emitter after a sequence of `On` calls, each with a key and its listeners
as arguments. -/
def EventEmitter.afterOnArgs {L : Type} (grow : Nat → Nat → Nat) (ee : EventEmitter L)
    (calls : List (String × List L)) : EventEmitter L :=
  calls.foldl (fun ee c => ee.OnArgs grow c.1 c.2) ee

/-- The registry of an emitter: each key with the elements of its slice. -/
def EventEmitter.view {L : Type} (ee : EventEmitter L) : Registry L :=
  { events := fun key => (ee.events key).map ee.read }

/-! ## The socket and its dispatcher (`Socket`, lines 38-115 and 194-199)

The dispatcher of a socket is private to it and every `On` call on it passes one
closure made on the spot, so no two of its keys share an array: it is held as a
`Registry`.  The application callbacks handed to `OnClose`, `OnError` and
`OnMessage` are numbered; a call of one is recorded, what the application does
inside it is not part of the socket.  The results of the writes to the stream
are inputs. -/

/-- A value of type `error` passed to `Emit("error", ..)`: an error of the receive
loop, or the failure of a write to the stream. -/
inductive ErrorValue
| reader (err : Err)
| stream (code : Nat)
deriving DecidableEq, Repr

/-- An argument of `Emit`: an error, a message text, or `nil`. -/
inductive Arg
| error (err : ErrorValue)
| text (message : List Nat)
| null
deriving DecidableEq, Repr

/-- The closures that `OnClose`, `OnError` and `OnMessage` register, each around
the application callback of the given number. -/
inductive SocketListener
| close (onClose : Nat)
| error (onError : Nat)
| message (onMessage : Nat)
deriving DecidableEq, Repr

/-- A call of an application callback, or the panic of a failed type assertion on
the first argument. -/
inductive Call
| onClose (callback : Nat)
| onError (callback : Nat) (err : ErrorValue)
| onMessage (callback : Nat) (message : List Nat)
| assertionPanic
deriving DecidableEq, Repr

/-- The type `Socket`, with the history of what it did: the emits made, the
application callbacks called, the buffers handed to `brw.Write`, and whether
`conn.Close()` was called. -/
structure Socket where
  ID : Nat
  State : String
  ee : Registry SocketListener
  writePayloadSize : Nat
  connClosed : Bool
  written : List (List Nat)
  emits : List (String × List Arg)
  calls : List Call

/-- The function `NewSocket` (lines 58-66), for the identifier drawn by
`randomID`. -/
def NewSocket (id : Nat) : Socket :=
  { ID := id, State := "Open", ee := Registry.New, writePayloadSize := maxWritePayloadSize,
    connClosed := false, written := [], emits := [], calls := [] }

/-- The method `_close` (lines 82-86). -/
def Socket._close (socket : Socket) : Socket :=
  { socket with State := "Closed", ee := socket.ee.Clear, connClosed := true }

/-- What calling a registered closure does (bodies of the closures of lines 89-92,
96-103 and 107-114). -/
def Socket.invoke (listener : SocketListener) (args : List Arg) (socket : Socket) : Socket :=
  match listener with
  | .close onClose =>
    let socket := socket._close
    { socket with calls := socket.calls ++ [.onClose onClose] }
  | .error onError =>
    match args with
    | [] => socket
    | .error err :: _ => { socket with calls := socket.calls ++ [.onError onError err] }
    | _ :: _ => { socket with calls := socket.calls ++ [.assertionPanic] }
  | .message onMessage =>
    match args with
    | [] => socket
    | .text message :: _ => { socket with calls := socket.calls ++ [.onMessage onMessage message] }
    | _ :: _ => { socket with calls := socket.calls ++ [.assertionPanic] }

/-- A call `socket.ee.Emit(key, args...)`: the emit is noted and the listeners of
the key are called. -/
def Socket.eeEmit (socket : Socket) (key : String) (args : List Arg) :
    Option EmitterError × Socket :=
  socket.ee.Emit Socket.invoke key args { socket with emits := socket.emits ++ [(key, args)] }

/-- The method `OnClose` (lines 88-93). -/
def Socket.OnClose (socket : Socket) (onClose : Nat) : Socket :=
  { socket with ee := socket.ee.On "close" [.close onClose] }

/-- The method `OnError` (lines 95-104). -/
def Socket.OnError (socket : Socket) (onError : Nat) : Socket :=
  { socket with ee := socket.ee.On "error" [.error onError] }

/-- The method `OnMessage` (lines 106-115). -/
def Socket.OnMessage (socket : Socket) (onMessage : Nat) : Socket :=
  { socket with ee := socket.ee.On "message" [.message onMessage] }

/-- The method `Close` (lines 68-80).  `writeErr` is the error returned by
`socket.brw.Write`, `flushErr` the one returned by `socket.brw.Flush()`, which the
method drops. -/
def Socket.Close (socket : Socket) (writeErr flushErr : Option Nat) : Socket :=
  let closeMessage := (finalFragmentOfMessage + connectionCloseFragment) % 256
  let message := [closeMessage, 0]
  let socket := { socket with written := socket.written ++ [message] }
  match writeErr with
  | some err => (socket.eeEmit "error" [.error (.stream err)]).2
  | none =>
    let _ := flushErr
    (socket.eeEmit "close" []).2

/-- The method `Send` (lines 194-199).  `results i` holds the errors returned by
`brw.Write` and `brw.Flush()` for fragment `i`; the method drops both. -/
def Socket.Send (socket : Socket) (message : List Nat)
    (results : Nat → Option Nat × Option Nat) : Socket :=
  let _ := results
  (toFragments socket.writePayloadSize message).foldl
    (fun socket fragment => { socket with written := socket.written ++ [fragment] }) socket

/-- The emit that the receive loop makes for an event of its trace. -/
def Socket.deliver (socket : Socket) : Event → Socket
| .error err => (socket.eeEmit "error" [.error (.reader err)]).2
| .close => (socket.eeEmit "close" [.null]).2
| .message text => (socket.eeEmit "message" [.text text]).2

/-- The receive loop of a socket run for at most `fuel` iterations on the stream
`brw`: how the loop ended and the socket after the emits of the loop. -/
def Socket.reader (socket : Socket) (fuel : Nat) (brw : List Nat) : Status × Socket :=
  ((Wsgo.reader fuel (readerInit brw)).1,
    (Wsgo.reader fuel (readerInit brw)).2.emitted.foldl Socket.deliver socket)

end Wsgo

namespace Wsgo

/-- A socket is closed and silent when its `State` is `"Closed"` and its dispatcher
holds no key. -/
def Socket.Silent (socket : Socket) : Prop :=
  socket.State = "Closed" ∧ ∀ key, socket.ee.events key = none

/-- What can be done on a socket from outside its callbacks: an emit of the receive
loop, a call of `Close`, a call of `Send`. -/
inductive SocketOp
| deliver (e : Event)
| close (writeErr flushErr : Option Nat)
| send (message : List Nat) (results : Nat → Option Nat × Option Nat)

/-- The socket after one such operation. -/
def Socket.step (socket : Socket) : SocketOp → Socket
| .deliver e => socket.deliver e
| .close writeErr flushErr => socket.Close writeErr flushErr
| .send message results => socket.Send message results

end Wsgo

namespace Wsgo

/-! ## The handshake (`websocket/websocket.go`)

`crypto/sha1` and `encoding/base64` are the standard SHA-1 (FIPS 180-4) and the
standard base64 alphabet with padding (RFC 4648); a string is hashed as its
UTF-8 bytes. -/

/-- Rotation of a 32-bit word to the left. -/
def rotl32 (x n : Nat) : Nat :=
  ((x <<< n) ||| (x >>> (32 - n))) % 2 ^ 32

/-- The four bytes of a 32-bit word, high byte first. -/
def putUint32 (v : Nat) : List Nat :=
  [v / 2 ^ 24 % 256, v / 2 ^ 16 % 256, v / 2 ^ 8 % 256, v % 256]

/-- SHA-1 padding: a one bit, zero bits up to 56 modulo 64 bytes, and the length
of the message in bits as eight bytes. -/
def sha1Pad (msg : List Nat) : List Nat :=
  msg ++ [0x80] ++ List.replicate ((119 - msg.length % 64) % 64) 0
    ++ putUint64 (8 * msg.length % 2 ^ 64)

/-- The first `n` blocks of 64 bytes. -/
def sha1Blocks : Nat → List Nat → List (List Nat)
| 0, _ => []
| n + 1, bytes => bytes.take 64 :: sha1Blocks n (bytes.drop 64)

/-- The sixteen big-endian words of a block. -/
def sha1Words (block : List Nat) : List Nat :=
  (List.range 16).map (fun i =>
    block.getD (4 * i) 0 * 2 ^ 24 + block.getD (4 * i + 1) 0 * 2 ^ 16
      + block.getD (4 * i + 2) 0 * 2 ^ 8 + block.getD (4 * i + 3) 0)

/-- The message schedule: the sixteen words extended to eighty. -/
def sha1Schedule (w : List Nat) : List Nat :=
  (List.range 64).foldl
    (fun w t =>
      w ++ [rotl32 (w.getD (t + 13) 0 ^^^ w.getD (t + 8) 0 ^^^ w.getD (t + 2) 0 ^^^ w.getD t 0) 1])
    w

/-- The five working words of SHA-1. -/
structure Sha1State where
  a : Nat
  b : Nat
  c : Nat
  d : Nat
  e : Nat
deriving DecidableEq, Repr

/-- Round `t` of the compression function. -/
def sha1Round (w : List Nat) (s : Sha1State) (t : Nat) : Sha1State :=
  let f :=
    if t < 20 then (s.b &&& s.c) ||| ((s.b ^^^ 0xFFFFFFFF) &&& s.d)
    else if t < 40 then s.b ^^^ s.c ^^^ s.d
    else if t < 60 then (s.b &&& s.c) ||| (s.b &&& s.d) ||| (s.c &&& s.d)
    else s.b ^^^ s.c ^^^ s.d
  let k :=
    if t < 20 then 0x5A827999 else if t < 40 then 0x6ED9EBA1
    else if t < 60 then 0x8F1BBCDC else 0xCA62C1D6
  { a := (rotl32 s.a 5 + f + s.e + k + w.getD t 0) % 2 ^ 32
    b := s.a
    c := rotl32 s.b 30
    d := s.c
    e := s.d }

/-- The compression of one block into the hash state. -/
def sha1Block (h : Sha1State) (block : List Nat) : Sha1State :=
  let w := sha1Schedule (sha1Words block)
  let r := (List.range 80).foldl (sha1Round w) h
  { a := (h.a + r.a) % 2 ^ 32, b := (h.b + r.b) % 2 ^ 32, c := (h.c + r.c) % 2 ^ 32,
    d := (h.d + r.d) % 2 ^ 32, e := (h.e + r.e) % 2 ^ 32 }

/-- The 20-byte SHA-1 digest of a byte sequence (`sha1.New`, `Write`, `Sum(nil)`). -/
def sha1Sum (msg : List Nat) : List Nat :=
  let padded := sha1Pad msg
  let h := (sha1Blocks (padded.length / 64) padded).foldl sha1Block
    { a := 0x67452301, b := 0xEFCDAB89, c := 0x98BADCFE, d := 0x10325476, e := 0xC3D2E1F0 }
  putUint32 h.a ++ putUint32 h.b ++ putUint32 h.c ++ putUint32 h.d ++ putUint32 h.e

/-- The alphabet of `base64.StdEncoding`. -/
def encodeStd : List Char :=
  "ABCDEFGHIJKLMNOPQRSTUVWXYZabcdefghijklmnopqrstuvwxyz0123456789+/".toList

/-- The character of a 6-bit value. -/
def base64Char (v : Nat) : Char :=
  encodeStd.getD v 'A'

/-- The function `base64.StdEncoding.EncodeToString`: three bytes give four
characters, the last group is padded with `=`. -/
def base64Encode : List Nat → List Char
| [] => []
| [a] => [base64Char (a / 4), base64Char (a % 4 * 16), '=', '=']
| [a, b] => [base64Char (a / 4), base64Char (a % 4 * 16 + b / 16), base64Char (b % 16 * 4), '=']
| a :: b :: c :: rest =>
  base64Char (a / 4) :: base64Char (a % 4 * 16 + b / 16) :: base64Char (b % 16 * 4 + c / 64)
    :: base64Char (c % 64) :: base64Encode rest

/-- The bytes of a string. -/
def utf8Bytes (s : String) : List Nat :=
  s.toList.flatMap (fun c => (String.utf8EncodeChar c).map UInt8.toNat)

/-- The function `generateWebSocketKey` (lines 69-75). -/
def generateWebSocketKey (clientKey : String) : String :=
  let magicString := "258EAFA5-E914-47DA-95CA-C5AB0DC85B11"
  let hash := sha1Sum (utf8Bytes (clientKey ++ magicString))
  String.mk (base64Encode hash)

/-- What `Upgrade` reads from the request: the values of `r.Header.Get("Upgrade")`
and `r.Header.Get("Sec-WebSocket-Key")`, each the empty string when the header is
absent. -/
structure Request where
  upgrade : String
  secWebSocketKey : String
deriving DecidableEq, Repr

/-- The response writer: the header map, and once `WriteHeader` has been called the
status written and the header map sent with it. -/
structure ResponseWriter where
  header : String → Option String
  status : Option Nat
  sent : String → Option String

/-- A response writer on which nothing has been set or written. -/
def ResponseWriter.fresh : ResponseWriter :=
  { header := fun _ => none, status := none, sent := fun _ => none }

/-- The call `w.Header().Set(key, value)`. -/
def ResponseWriter.set (w : ResponseWriter) (key value : String) : ResponseWriter :=
  { w with header := fun k => if k = key then some value else w.header k }

/-- The call `w.WriteHeader(code)`: the first call writes the status with the
headers set so far, a later call changes nothing. -/
def ResponseWriter.WriteHeader (w : ResponseWriter) (code : Nat) : ResponseWriter :=
  match w.status with
  | some _ => w
  | none => { w with status := some code, sent := w.header }

/-- The type `WebSocket`: a dispatcher whose listeners are the closures of
`OnConnection`, each around the application callback of the given number. -/
structure WebSocket where
  ee : Registry Nat

/-- The function `NewWebSocket` (lines 17-23). -/
def NewWebSocket : WebSocket :=
  { ee := Registry.New }

/-- The method `OnConnection` (lines 25-33). -/
def WebSocket.OnConnection (ws : WebSocket) (onConnection : Nat) : WebSocket :=
  { ee := ws.ee.On "connection" [onConnection] }

/-- What a call of `Upgrade` leaves behind: the response writer, the socket made
by `NewSocket` if any, and the `OnConnection` callbacks called with it. -/
structure Upgraded where
  w : ResponseWriter
  socket : Option Socket
  connection : List (Nat × List Socket)

/-- The method `Upgrade` (lines 35-67).  `hijackErr` is the error returned by
`wC.Hijack()` and `id` the identifier of the new socket.  Of `http.Error` only the
call of `WriteHeader` is kept. -/
def WebSocket.Upgrade (ws : WebSocket) (w : ResponseWriter) (r : Request)
    (hijackErr : Option Nat) (id : Nat) : Upgraded :=
  let upgradeHeader := r.upgrade
  if upgradeHeader = "websocket" then
    let clientKey := r.secWebSocketKey
    if clientKey = "" then
      { w := w.WriteHeader 400, socket := none, connection := [] }
    else
      let socketKey := generateWebSocketKey clientKey
      let w := w.set "Upgrade" "WebSocket"
      let w := w.set "Connection" "Upgrade"
      let w := w.set "Sec-WebSocket-Accept" socketKey
      let w := w.WriteHeader 101
      match hijackErr with
      | some _ => { w := w.WriteHeader 500, socket := none, connection := [] }
      | none =>
        let socket := NewSocket id
        { w := w, socket := some socket,
          connection := (ws.ee.Emit recordCall "connection" [socket] []).2 }
  else
    { w := w.WriteHeader 400, socket := none, connection := [] }

end Wsgo

namespace Wsgo

/-! ## Outbound fragmentation: the loop in closed form -/

theorem lt_fragmentCountOf_iff (n m k : Nat) (hm : 1 ≤ m) :
    k < fragmentCountOf n m ↔ k * m < n := by
  unfold fragmentCountOf
  rw [Nat.lt_iff_add_one_le, Nat.le_div_iff_mul_le (by omega), Nat.add_mul]
  omega

theorem fragmentCountOf_mul_ge (n m : Nat) (hm : 1 ≤ m) : n ≤ fragmentCountOf n m * m := by
  by_contra h
  have := (lt_fragmentCountOf_iff n m (fragmentCountOf n m) hm).2 (by omega)
  omega

theorem length_chunkAt (m : Nat) (msg : List Nat) (i : Nat) :
    (chunkAt m msg i).length = min m (msg.length - i * m) := by
  simp [chunkAt]

theorem toFragments_loop (m : Nat) (msg : List Nat) (hm : 1 ≤ m) (k : Nat)
    (hk : k ≤ fragmentCountOf msg.length m) :
    (List.range k).foldl (toFragmentsRound m msg (fragmentCountOf msg.length m))
        { unreadedMessageLen := msg.length, fragments := [] }
      = { unreadedMessageLen := msg.length - k * m
          fragments := (List.range k).map (fragmentAt m msg) } := by
  induction k with
  | zero => simp
  | succ k ih =>
    have hlt : k * m < msg.length := (lt_fragmentCountOf_iff _ _ _ hm).1 (by omega)
    rw [List.range_succ, List.foldl_append, ih (by omega)]
    simp only [List.foldl_cons, List.foldl_nil, List.map_append, List.map_cons, List.map_nil]
    have hoff : msg.length - (msg.length - k * m) = k * m := by omega
    have hsz : (if msg.length - k * m < m then msg.length - k * m else m)
        = (chunkAt m msg k).length := by
      rw [length_chunkAt]
      split <;> omega
    have htk : List.take (if msg.length - k * m < m then msg.length - k * m else m)
        (List.drop (k * m) msg) = chunkAt m msg k := by
      unfold chunkAt
      split
      · rw [List.take_of_length_le (by simp), List.take_of_length_le (by simp; omega)]
      · rfl
    simp only [toFragmentsRound, hoff, htk]
    rw [hsz, length_chunkAt]
    simp only [fragmentAt, length_chunkAt, FragLoop.mk.injEq, and_true]
    rw [Nat.succ_mul]
    omega

/-- The frames of a message are the frames of its successive chunks. -/
theorem toFragments_eq_map (m : Nat) (msg : List Nat) (hm : 1 ≤ m) :
    toFragments m msg
      = (List.range (fragmentCountOf msg.length m)).map (fragmentAt m msg) := by
  unfold toFragments
  simp only
  rw [toFragments_loop m msg hm _ (le_refl _)]

theorem length_toFragments (m : Nat) (msg : List Nat) (hm : 1 ≤ m) :
    (toFragments m msg).length = fragmentCountOf msg.length m := by
  rw [toFragments_eq_map m msg hm]; simp

theorem getD_toFragments (m : Nat) (msg : List Nat) (hm : 1 ≤ m) (k : Nat)
    (hk : k < (toFragments m msg).length) :
    (toFragments m msg).getD k [] = fragmentAt m msg k := by
  have hk2 : k < fragmentCountOf msg.length m := by rwa [length_toFragments m msg hm] at hk
  rw [toFragments_eq_map m msg hm, List.getD_eq_getElem _ _ (by simpa using hk2)]
  simp

theorem fragmentCountOf_eq_ceil (n m : Nat) (hm : 1 ≤ m) :
    fragmentCountOf n m = ⌈(n : ℚ) / (m : ℚ)⌉₊ := by
  have hmq : (0 : ℚ) < (m : ℚ) := by exact_mod_cast hm
  apply le_antisymm
  · by_contra h
    push_neg at h
    have h1 : ⌈(n : ℚ) / (m : ℚ)⌉₊ * m < n :=
      (lt_fragmentCountOf_iff n m _ hm).1 h
    have h2 : (n : ℚ) / (m : ℚ) ≤ (⌈(n : ℚ) / (m : ℚ)⌉₊ : ℚ) := Nat.le_ceil _
    rw [div_le_iff₀ hmq] at h2
    have h3 : (n : ℚ) ≤ ((⌈(n : ℚ) / (m : ℚ)⌉₊ * m : Nat) : ℚ) := by push_cast; exact h2
    have h4 : n ≤ ⌈(n : ℚ) / (m : ℚ)⌉₊ * m := by exact_mod_cast h3
    omega
  · rw [Nat.ceil_le, div_le_iff₀ hmq]
    have := fragmentCountOf_mul_ge n m hm
    exact_mod_cast this

/-- The chunks of the first `k` rounds make up the first `k * m` bytes. -/
theorem flatten_chunks (m : Nat) (msg : List Nat) (k : Nat) :
    ((List.range k).map (chunkAt m msg)).flatten = msg.take (k * m) := by
  induction k with
  | zero => simp
  | succ k ih =>
    rw [List.range_succ, List.map_append, List.flatten_append, ih, Nat.succ_mul, List.take_add]
    simp [chunkAt]

/-! ### Header and payload of a produced frame -/

theorem frameHeaderSize_fragmentHeader (c i : Nat) (taken : List Nat) :
    frameHeaderSize (fragmentHeader c i taken.length ++ taken)
      = (fragmentHeader c i taken.length).length := by
  unfold fragmentHeader frameHeaderSize
  simp only [payload0Max, byte2MaxValue, payloadNext2Byte, payloadNext8Byte]
  split
  · rename_i h
    have h1 : taken.length % 256 % 128 ≤ 125 := by omega
    simp [h1]
  · split <;> simp [putUint16, putUint64]

theorem framePayload_fragmentAt (m : Nat) (msg : List Nat) (i : Nat) :
    framePayload (fragmentAt m msg i) = chunkAt m msg i := by
  unfold framePayload fragmentAt
  rw [frameHeaderSize_fragmentHeader]
  simp

end Wsgo

namespace Wsgo

/-! ### Bits of a byte -/

theorem valueOfBit_seven (b : Nat) (hb : b < 256) : valueOfBit b 7 = decide (128 ≤ b) := by
  unfold valueOfBit
  interval_cases b <;> rfl

theorem fragmentType_eq_mod (b : Nat) : fragmentType b = b % 16 := by
  unfold fragmentType extractRight4Bit
  exact Nat.and_pow_two_sub_one_eq_mod b 4

theorem uint16BE_putUint16 (s : Nat) (hs : s < 2 ^ 16) : uint16BE (putUint16 s) = s := by
  simp only [uint16BE, putUint16, List.getD_cons_zero, List.getD_cons_succ]
  omega

theorem uint64BE_putUint64 (s : Nat) (hs : s < 2 ^ 64) : uint64BE (putUint64 s) = s := by
  simp only [uint64BE, putUint64, List.getD_cons_zero, List.getD_cons_succ]
  omega

theorem putUint16_bytes (s : Nat) : ∀ b ∈ putUint16 s, b < 256 := by
  intro b hb
  simp only [putUint16, List.mem_cons, List.mem_singleton, List.not_mem_nil, or_false] at hb
  omega

theorem putUint64_bytes (s : Nat) : ∀ b ∈ putUint64 s, b < 256 := by
  intro b hb
  simp only [putUint64, List.mem_cons, List.mem_singleton, List.not_mem_nil, or_false] at hb
  omega

end Wsgo

namespace Wsgo

/-! ## Claims on outbound fragmentation -/

theorem firstByte_fragmentAt (m : Nat) (msg : List Nat) (k : Nat) :
    (fragmentAt m msg k).getD 0 0
      = (if k + 1 = fragmentCountOf msg.length m then 128 else 0) + (if k = 0 then 1 else 0) := by
  have hc : ((k : Int) = (fragmentCountOf msg.length m : Int) - 1)
      ↔ k + 1 = fragmentCountOf msg.length m := by omega
  unfold fragmentAt fragmentHeader
  simp only [hc, finalFragmentOfMessage]
  split
  · simp only [List.cons_append, List.getD_cons_zero]
    split <;> split <;> rfl
  · split
    · simp only [List.cons_append, List.getD_cons_zero]
      split <;> split <;> rfl
    · simp only [List.cons_append, List.getD_cons_zero]
      split <;> split <;> rfl

/-- C2. Outbound fragmentation: for a maximum fragment size `m ≥ 1` the message
is cut into `⌈n / m⌉` frames, every payload has at most `m` bytes, every payload
but the last has exactly `m` bytes, and the payloads in order make up the
message. -/
theorem toFragments_fragmentation (m : Nat) (message : List Nat) (hm : 1 ≤ m) :
    (toFragments m message).length = ⌈(message.length : ℚ) / (m : ℚ)⌉₊
    ∧ (∀ k, k < (toFragments m message).length →
        (framePayload ((toFragments m message).getD k [])).length ≤ m)
    ∧ (∀ k, k + 1 < (toFragments m message).length →
        (framePayload ((toFragments m message).getD k [])).length = m)
    ∧ ((toFragments m message).map framePayload).flatten = message := by
  refine ⟨?_, ?_, ?_, ?_⟩
  · rw [length_toFragments m message hm, fragmentCountOf_eq_ceil _ _ hm]
  · intro k hk
    rw [getD_toFragments m message hm k hk, framePayload_fragmentAt, length_chunkAt]
    omega
  · intro k hk
    rw [getD_toFragments m message hm k (by omega), framePayload_fragmentAt, length_chunkAt]
    rw [length_toFragments m message hm] at hk
    have h := (lt_fragmentCountOf_iff message.length m (k + 1) hm).1 hk
    rw [Nat.succ_mul] at h
    omega
  · rw [toFragments_eq_map m message hm, List.map_map]
    have hfun : framePayload ∘ fragmentAt m message = chunkAt m message := by
      funext i
      exact framePayload_fragmentAt m message i
    rw [hfun, flatten_chunks]
    exact List.take_of_length_le (fragmentCountOf_mul_ge _ _ hm)

theorem toFragments_fragmentation_witness :
    1 ≤ 3
    ∧ (toFragments 3 [1, 2, 3, 4, 5, 6, 7]).length = ⌈(([1, 2, 3, 4, 5, 6, 7] : List Nat).length : ℚ) / ((3 : Nat) : ℚ)⌉₊
    ∧ (∀ k, k < (toFragments 3 [1, 2, 3, 4, 5, 6, 7]).length →
        (framePayload ((toFragments 3 [1, 2, 3, 4, 5, 6, 7]).getD k [])).length ≤ 3)
    ∧ (∀ k, k + 1 < (toFragments 3 [1, 2, 3, 4, 5, 6, 7]).length →
        (framePayload ((toFragments 3 [1, 2, 3, 4, 5, 6, 7]).getD k [])).length = 3)
    ∧ ((toFragments 3 [1, 2, 3, 4, 5, 6, 7]).map framePayload).flatten = [1, 2, 3, 4, 5, 6, 7] :=
  ⟨by decide, toFragments_fragmentation 3 [1, 2, 3, 4, 5, 6, 7] (by decide)⟩

theorem toFragments_nil (m : Nat) : toFragments m [] = [] := by
  have hc : fragmentCountOf 0 m = 0 := by
    unfold fragmentCountOf
    rcases Nat.eq_zero_or_pos m with h | h
    · subst h; rfl
    · exact Nat.div_eq_of_lt (by omega)
  simp [toFragments, hc]

/-- C3. On the empty message the loop of `toFragments` makes no round: for every
maximum fragment size the result is the empty list of frames, not the single
zero-length frame the specification asks for. -/
theorem toFragments_empty_message (m : Nat) :
    toFragments m [] = [] ∧ (toFragments m []).length ≠ 1 := by
  rw [toFragments_nil]
  exact ⟨rfl, by decide⟩

/-- C4. On the empty message `toFragments` produces no frame, so there is not
exactly one frame with fin set: there is none. -/
theorem toFragments_empty_no_fin :
    ¬ ∃! k, k < (toFragments 4096 []).length
        ∧ valueOfBit (((toFragments 4096 []).getD k []).getD 0 0) 7 = true := by
  rintro ⟨k, ⟨hk, _⟩, _⟩
  rw [toFragments_nil] at hk
  exact Nat.not_lt_zero k hk

/-- Opcode and fin of the frames produced: for a maximum fragment size `m ≥ 1`,
frame `k` of the `n` frames has opcode text if `k = 0` and continuation
otherwise, has fin set exactly when `k = n - 1`, and has its three reserved bits
clear; for a non-empty message exactly one frame has fin set. -/
theorem toFragments_opcode_fin (m : Nat) (message : List Nat) (hm : 1 ≤ m) :
    (∀ k, k < (toFragments m message).length →
      fragmentType (((toFragments m message).getD k []).getD 0 0)
          = (if k = 0 then textFragment else continuationFragment)
      ∧ (valueOfBit (((toFragments m message).getD k []).getD 0 0) 7 = true
          ↔ k + 1 = (toFragments m message).length)
      ∧ valueOfBit (((toFragments m message).getD k []).getD 0 0) 6 = false
      ∧ valueOfBit (((toFragments m message).getD k []).getD 0 0) 5 = false
      ∧ valueOfBit (((toFragments m message).getD k []).getD 0 0) 4 = false)
    ∧ (message ≠ [] →
        ∃! k, k < (toFragments m message).length
          ∧ valueOfBit (((toFragments m message).getD k []).getD 0 0) 7 = true) := by
  have key : ∀ k, k < (toFragments m message).length →
      fragmentType (((toFragments m message).getD k []).getD 0 0)
          = (if k = 0 then textFragment else continuationFragment)
      ∧ (valueOfBit (((toFragments m message).getD k []).getD 0 0) 7 = true
          ↔ k + 1 = (toFragments m message).length)
      ∧ valueOfBit (((toFragments m message).getD k []).getD 0 0) 6 = false
      ∧ valueOfBit (((toFragments m message).getD k []).getD 0 0) 5 = false
      ∧ valueOfBit (((toFragments m message).getD k []).getD 0 0) 4 = false := by
    intro k hk
    rw [getD_toFragments m message hm k hk, firstByte_fragmentAt, length_toFragments m message hm]
    by_cases h1 : k + 1 = fragmentCountOf message.length m <;> by_cases h2 : k = 0
    · simp only [if_pos h1, if_pos h2]
      exact ⟨by decide, ⟨fun _ => h1, fun _ => by decide⟩, by decide, by decide, by decide⟩
    · simp only [if_pos h1, if_neg h2]
      exact ⟨by decide, ⟨fun _ => h1, fun _ => by decide⟩, by decide, by decide, by decide⟩
    · simp only [if_neg h1, if_pos h2]
      exact ⟨by decide, ⟨fun h => absurd h (by decide), fun h => absurd h h1⟩,
        by decide, by decide, by decide⟩
    · simp only [if_neg h1, if_neg h2]
      exact ⟨by decide, ⟨fun h => absurd h (by decide), fun h => absurd h h1⟩,
        by decide, by decide, by decide⟩
  refine ⟨key, ?_⟩
  intro hne
  have hpos : 0 < (toFragments m message).length := by
    rw [length_toFragments m message hm]
    apply (lt_fragmentCountOf_iff _ _ _ hm).2
    have := List.length_pos.2 hne
    omega
  refine ⟨(toFragments m message).length - 1, ⟨by omega, ?_⟩, ?_⟩
  · exact ((key _ (by omega)).2.1).2 (by omega)
  · rintro k ⟨hk, hfin⟩
    have := ((key k hk).2.1).1 hfin
    omega

theorem toFragments_opcode_fin_witness :
    1 ≤ 2
    ∧ (∀ k, k < (toFragments 2 [7, 8, 9]).length →
      fragmentType (((toFragments 2 [7, 8, 9]).getD k []).getD 0 0)
          = (if k = 0 then textFragment else continuationFragment)
      ∧ (valueOfBit (((toFragments 2 [7, 8, 9]).getD k []).getD 0 0) 7 = true
          ↔ k + 1 = (toFragments 2 [7, 8, 9]).length)
      ∧ valueOfBit (((toFragments 2 [7, 8, 9]).getD k []).getD 0 0) 6 = false
      ∧ valueOfBit (((toFragments 2 [7, 8, 9]).getD k []).getD 0 0) 5 = false
      ∧ valueOfBit (((toFragments 2 [7, 8, 9]).getD k []).getD 0 0) 4 = false)
    ∧ (([7, 8, 9] : List Nat) ≠ [] →
        ∃! k, k < (toFragments 2 [7, 8, 9]).length
          ∧ valueOfBit (((toFragments 2 [7, 8, 9]).getD k []).getD 0 0) 7 = true) :=
  ⟨by decide, toFragments_opcode_fin 2 [7, 8, 9] (by decide)⟩

end Wsgo

namespace Wsgo

/-- C5. Length encoding of outbound frames: frame `k` carries the payload
`(message.drop (k * m)).take m` of size `s`; its header is two bytes with byte 1
equal to `s` when `s ≤ 125`, byte 1 equal to 126 followed by `s` as two
big-endian bytes when `126 ≤ s ≤ 65535`, and byte 1 equal to 127 followed by `s`
as eight big-endian bytes when `s ≥ 65536`; the mask flag is clear and the
payload follows the header directly. -/
theorem toFragments_length_encoding (m : Nat) (message : List Nat) (hm : 1 ≤ m)
    (hint : m < 2 ^ 63) (k : Nat) (hk : k < (toFragments m message).length) :
    ∃ b0 : Nat,
      (((message.drop (k * m)).take m).length ≤ 125 →
        (toFragments m message).getD k []
          = [b0, ((message.drop (k * m)).take m).length] ++ (message.drop (k * m)).take m)
      ∧ (126 ≤ ((message.drop (k * m)).take m).length
          ∧ ((message.drop (k * m)).take m).length ≤ 65535 →
        ∃ ext : List Nat, ext.length = 2 ∧ (∀ b ∈ ext, b < 256)
          ∧ uint16BE ext = ((message.drop (k * m)).take m).length
          ∧ (toFragments m message).getD k []
              = [b0, 126] ++ ext ++ (message.drop (k * m)).take m)
      ∧ (65536 ≤ ((message.drop (k * m)).take m).length →
        ∃ ext : List Nat, ext.length = 8 ∧ (∀ b ∈ ext, b < 256)
          ∧ uint64BE ext = ((message.drop (k * m)).take m).length
          ∧ (toFragments m message).getD k []
              = [b0, 127] ++ ext ++ (message.drop (k * m)).take m)
      ∧ valueOfBit (((toFragments m message).getD k []).getD 1 0) 7 = false := by
  rw [getD_toFragments m message hm k hk]
  have hlen : ((message.drop (k * m)).take m).length ≤ m := by
    simp only [List.length_take]; omega
  generalize hs : ((message.drop (k * m)).take m).length = s at hlen ⊢
  refine ⟨(fragmentAt m message k).getD 0 0, ?_⟩
  unfold fragmentAt chunkAt
  rw [hs]
  unfold fragmentHeader
  simp only [payload0Max, byte2MaxValue, payloadNext2Byte, payloadNext8Byte]
  by_cases h1 : s ≤ 125
  · have hmod : s % 256 = s := Nat.mod_eq_of_lt (by omega)
    simp only [if_pos h1, hmod, List.cons_append, List.nil_append, List.getD_cons_zero,
      List.getD_cons_succ]
    refine ⟨fun _ => trivial, fun h => absurd h.1 (by omega), fun h => absurd h (by omega), ?_⟩
    rw [valueOfBit_seven s (by omega)]
    simp; omega
  · by_cases h2 : s ≤ 65535
    · have hmod : s % 2 ^ 16 = s := Nat.mod_eq_of_lt (by omega)
      simp only [if_neg h1, if_pos h2, hmod, List.cons_append, List.nil_append,
        List.getD_cons_zero, List.getD_cons_succ]
      refine ⟨fun h => absurd h h1, fun _ => ?_, fun h => absurd h (by omega), by decide⟩
      exact ⟨putUint16 s, rfl, putUint16_bytes s, uint16BE_putUint16 s (by omega), rfl⟩
    · have hmod : s % 2 ^ 64 = s := Nat.mod_eq_of_lt (by omega)
      simp only [if_neg h1, if_neg h2, hmod, List.cons_append, List.nil_append,
        List.getD_cons_zero, List.getD_cons_succ]
      refine ⟨fun h => absurd h h1, fun h => absurd h.2 h2, fun _ => ?_, by decide⟩
      exact ⟨putUint64 s, rfl, putUint64_bytes s, uint64BE_putUint64 s (by omega), rfl⟩

theorem toFragments_length_encoding_witness :
    1 ≤ 3 ∧ 3 < 2 ^ 63 ∧ 1 < (toFragments 3 [1, 2, 3, 4, 5]).length ∧
    ∃ b0 : Nat,
      (((([1, 2, 3, 4, 5] : List Nat).drop (1 * 3)).take 3).length ≤ 125 →
        (toFragments 3 [1, 2, 3, 4, 5]).getD 1 []
          = [b0, ((([1, 2, 3, 4, 5] : List Nat).drop (1 * 3)).take 3).length] ++ (([1, 2, 3, 4, 5] : List Nat).drop (1 * 3)).take 3)
      ∧ (126 ≤ ((([1, 2, 3, 4, 5] : List Nat).drop (1 * 3)).take 3).length
          ∧ ((([1, 2, 3, 4, 5] : List Nat).drop (1 * 3)).take 3).length ≤ 65535 →
        ∃ ext : List Nat, ext.length = 2 ∧ (∀ b ∈ ext, b < 256)
          ∧ uint16BE ext = ((([1, 2, 3, 4, 5] : List Nat).drop (1 * 3)).take 3).length
          ∧ (toFragments 3 [1, 2, 3, 4, 5]).getD 1 []
              = [b0, 126] ++ ext ++ (([1, 2, 3, 4, 5] : List Nat).drop (1 * 3)).take 3)
      ∧ (65536 ≤ ((([1, 2, 3, 4, 5] : List Nat).drop (1 * 3)).take 3).length →
        ∃ ext : List Nat, ext.length = 8 ∧ (∀ b ∈ ext, b < 256)
          ∧ uint64BE ext = ((([1, 2, 3, 4, 5] : List Nat).drop (1 * 3)).take 3).length
          ∧ (toFragments 3 [1, 2, 3, 4, 5]).getD 1 []
              = [b0, 127] ++ ext ++ (([1, 2, 3, 4, 5] : List Nat).drop (1 * 3)).take 3)
      ∧ valueOfBit (((toFragments 3 [1, 2, 3, 4, 5]).getD 1 []).getD 1 0) 7 = false :=
  ⟨by decide, by decide, by decide,
    toFragments_length_encoding 3 [1, 2, 3, 4, 5] (by decide) (by decide) 1 (by decide)⟩

end Wsgo

namespace Wsgo

/-! ## The receive loop -/

theorem messageEvents_append (xs ys : List Event) :
    messageEvents (xs ++ ys) = messageEvents xs ++ messageEvents ys := by
  induction xs with
  | nil => rfl
  | cons e es ih => cases e <;> simp [messageEvents, ih]

theorem errorCount_append (xs ys : List Event) :
    errorCount (xs ++ ys) = errorCount xs + errorCount ys := by
  induction xs with
  | nil => simp [errorCount]
  | cons e es ih => cases e <;> simp [errorCount, ih]; omega

theorem closeCount_append (xs ys : List Event) :
    closeCount (xs ++ ys) = closeCount xs + closeCount ys := by
  induction xs with
  | nil => simp [closeCount]
  | cons e es ih => cases e <;> simp [closeCount, ih]; omega

theorem readBytes_two (b0 b1 : Nat) (rest : List Nat) :
    readBytes (b0 :: b1 :: rest) 2 = .ok [b0, b1] rest := by
  simp [readBytes, readFull, maxAlloc]

theorem readFull_append (buf rest : List Nat) :
    readFull (buf ++ rest) buf.length = .ok buf rest := by
  simp [readFull]

theorem readBytes_append (buf rest : List Nat) (h : buf.length ≤ maxAlloc) :
    readBytes (buf ++ rest) (buf.length : Nat) = .ok buf rest := by
  have hno : ¬ (((buf.length : Nat) : Int) < 0 ∨ (maxAlloc : Int) < ((buf.length : Nat) : Int)) := by
    omega
  rw [readBytes, if_neg hno, Int.toNat_ofNat]
  exact readFull_append buf rest

theorem unmaskFrom_unmaskFrom (key : List Nat) (i : Nat) (bytes : List Nat) :
    unmaskFrom key i (unmaskFrom key i bytes) = bytes := by
  induction bytes generalizing i with
  | nil => rfl
  | cons b bs ih => simp [unmaskFrom, ih, Nat.xor_cancel_right]

theorem length_unmaskFrom (key : List Nat) (i : Nat) (bytes : List Nat) :
    (unmaskFrom key i bytes).length = bytes.length := by
  induction bytes generalizing i with
  | nil => rfl
  | cons b bs ih => simp [unmaskFrom, ih]

/-- C8. Masking round trip: the unmasking step of the receive loop applied twice
with the same key gives back the original bytes, and it keeps the length. -/
theorem unmask_roundtrip (key bytes : List Nat) :
    unmask key (unmask key bytes) = bytes ∧ (unmask key bytes).length = bytes.length :=
  ⟨unmaskFrom_unmaskFrom key 0 bytes, length_unmaskFrom key 0 bytes⟩

/-- C9. Unmasked-frame rejection: an iteration that reads a header whose opcode is
not close and whose mask flag is clear consumes the two header bytes only, emits
one "error" event and no "message" event, leaves the reassembly buffer as it was
and goes on to the next iteration. -/
theorem readerIter_unmasked (s : ReaderState) (b0 b1 : Nat) (rest : List Nat)
    (hbrw : s.brw = b0 :: b1 :: rest)
    (hop : fragmentType b0 ≠ connectionCloseFragment)
    (hb1 : b1 < 256) (hmask : valueOfBit b1 7 = false) :
    readerIter s
        = (.running,
            { brw := rest, message := s.message,
              emitted := s.emitted ++ [.error .notMasked] })
    ∧ errorCount (readerIter s).2.emitted = errorCount s.emitted + 1
    ∧ messageEvents (readerIter s).2.emitted = messageEvents s.emitted
    ∧ closeCount (readerIter s).2.emitted = closeCount s.emitted := by
  have hlt : b1 < isMasked := by
    rw [valueOfBit_seven b1 hb1] at hmask
    simpa [isMasked] using hmask
  have hstep : readerIter s
      = (.running,
          { brw := rest, message := s.message,
            emitted := s.emitted ++ [.error .notMasked] }) := by
    unfold readerIter
    rw [hbrw, readBytes_two]
    dsimp only [List.getD_cons_zero, List.getD_cons_succ]
    rw [if_neg hop, if_pos hlt]
  rw [hstep]
  refine ⟨rfl, ?_, ?_, ?_⟩
  · simp [errorCount_append, errorCount]
  · simp [messageEvents_append, messageEvents]
  · simp [closeCount_append, closeCount]

theorem readerIter_unmasked_witness :
    ({ brw := [0x81, 0x05, 1, 2, 3], message := [9], emitted := [] } : ReaderState).brw
        = 0x81 :: 0x05 :: [1, 2, 3]
    ∧ fragmentType 0x81 ≠ connectionCloseFragment
    ∧ 0x05 < 256 ∧ valueOfBit 0x05 7 = false
    ∧ readerIter { brw := [0x81, 0x05, 1, 2, 3], message := [9], emitted := [] }
        = (.running, { brw := [1, 2, 3], message := [9], emitted := [.error .notMasked] }) :=
  ⟨rfl, by decide, by decide, by decide,
    (readerIter_unmasked { brw := [0x81, 0x05, 1, 2, 3], message := [9], emitted := [] }
      0x81 0x05 [1, 2, 3] rfl (by decide) (by decide) (by decide)).1⟩

end Wsgo

namespace Wsgo

/-! ### The close header and the end of the loop -/

theorem readerIter_close (s : ReaderState) (b0 b1 : Nat) (rest : List Nat)
    (hbrw : s.brw = b0 :: b1 :: rest) (hop : fragmentType b0 = connectionCloseFragment) :
    readerIter s
      = (.returned, { brw := rest, message := [], emitted := s.emitted ++ [.close] }) := by
  unfold readerIter
  rw [hbrw, readBytes_two]
  dsimp only [List.getD_cons_zero]
  rw [if_pos hop]

theorem readBytes_two_ok (brw buf rest : List Nat) (h : readBytes brw 2 = .ok buf rest) :
    ∃ b0 b1, brw = b0 :: b1 :: rest ∧ buf = [b0, b1] := by
  match brw, h with
  | [], h => simp [readBytes, readFull, maxAlloc] at h
  | [_], h => simp [readBytes, readFull, maxAlloc] at h
  | b0 :: b1 :: r, h =>
    rw [readBytes_two] at h
    injection h with h1 h2
    exact ⟨b0, b1, by rw [h2], h1.symm⟩

/-- An iteration leaves the loop through `return` only on a close header. -/
theorem readerIter_returned (t : ReaderState) (h : (readerIter t).1 = .returned) :
    ∃ c0 c1 r, t.brw = c0 :: c1 :: r ∧ fragmentType c0 = connectionCloseFragment := by
  unfold readerIter at h
  split at h
  · simp at h
  · simp at h
  · rename_i buf rest hread
    obtain ⟨c0, c1, hb, hbuf⟩ := readBytes_two_ok _ _ _ hread
    refine ⟨c0, c1, rest, hb, ?_⟩
    subst hbuf
    dsimp only [List.getD_cons_zero, List.getD_cons_succ] at h
    by_contra hne
    rw [if_neg hne] at h
    repeat' split at h
    all_goals simp at h

theorem reader_returned (n : Nat) (t : ReaderState) (h : (reader n t).1 = .returned) :
    ∃ j t' c0 c1 r, j < n ∧ reader j t = (.running, t') ∧ t'.brw = c0 :: c1 :: r
      ∧ fragmentType c0 = connectionCloseFragment := by
  induction n generalizing t with
  | zero => exact absurd h (by simp [reader])
  | succ n ih =>
    rw [reader] at h
    rcases hit : readerIter t with ⟨st, t1⟩
    rw [hit] at h
    cases st with
    | running =>
      obtain ⟨j, t', c0, c1, r, hj, hrun, hb, hc⟩ := ih t1 h
      refine ⟨j + 1, t', c0, c1, r, by omega, ?_, hb, hc⟩
      rw [reader, hit]
      exact hrun
    | returned =>
      have h1 : (readerIter t).1 = .returned := by rw [hit]
      obtain ⟨c0, c1, r, hb, hc⟩ := readerIter_returned t h1
      exact ⟨0, t, c0, c1, r, by omega, rfl, hb, hc⟩
    | panicked => exact absurd h (by simp)

/-- C10. A close header is not the only way the loop ends: on a header with
length indicator 127 whose eight length bytes have the top bit set the loop ends
in a run-time panic, although no close header was read and no "close" event was
emitted. -/
theorem reader_ends_without_close :
    (reader 1 (readerInit [0x82, 0xFF, 0xFF, 0, 0, 0, 0, 0, 0, 0, 1, 2, 3, 4])).1 = .panicked
    ∧ fragmentType 0x82 ≠ connectionCloseFragment
    ∧ closeCount (reader 1
        (readerInit [0x82, 0xFF, 0xFF, 0, 0, 0, 0, 0, 0, 0, 1, 2, 3, 4])).2.emitted = 0 := by
  decide

/-- The close header: on a header whose low four bits of byte 0 are 8, whatever
the other header bits and whatever is buffered, the loop emits one "close" event
and no "message" event, reads nothing after the two header bytes and returns;
and a close header is the only way the loop returns. -/
theorem reader_close (s : ReaderState) (b0 b1 : Nat) (rest : List Nat)
    (hbrw : s.brw = b0 :: b1 :: rest) (hop : fragmentType b0 = connectionCloseFragment) :
    (∀ n, reader (n + 1) s
        = (.returned, { brw := rest, message := [], emitted := s.emitted ++ [.close] }))
    ∧ closeCount (s.emitted ++ [.close]) = closeCount s.emitted + 1
    ∧ messageEvents (s.emitted ++ [.close]) = messageEvents s.emitted
    ∧ errorCount (s.emitted ++ [.close]) = errorCount s.emitted
    ∧ (∀ n t, (reader n t).1 = .returned →
        ∃ j t' c0 c1 r, j < n ∧ reader j t = (.running, t') ∧ t'.brw = c0 :: c1 :: r
          ∧ fragmentType c0 = connectionCloseFragment) := by
  refine ⟨?_, ?_, ?_, ?_, reader_returned⟩
  · intro n
    rw [reader, readerIter_close s b0 b1 rest hbrw hop]
  · simp [closeCount_append, closeCount]
  · simp [messageEvents_append, messageEvents]
  · simp [errorCount_append, errorCount]

theorem reader_close_witness :
    ({ brw := [0x08, 0xFE, 7, 7], message := [1, 2], emitted := [] } : ReaderState).brw
        = 0x08 :: 0xFE :: [7, 7]
    ∧ fragmentType 0x08 = connectionCloseFragment
    ∧ ∀ n, reader (n + 1) { brw := [0x08, 0xFE, 7, 7], message := [1, 2], emitted := [] }
        = (.returned, { brw := [7, 7], message := [], emitted := [.close] }) :=
  ⟨rfl, by decide,
    (reader_close { brw := [0x08, 0xFE, 7, 7], message := [1, 2], emitted := [] }
      0x08 0xFE [7, 7] rfl (by decide)).1⟩

/-- C7. The payload length the reader uses is not the unsigned value of the eight
length bytes when their top bit is set: the bytes `80 00 00 00 00 00 00 00` hold
`2 ^ 63`, the reader's `payloadLen` is `-2 ^ 63`, and the iteration ends in the
panic of `readBytes`. -/
theorem readPayloadLen_wraps :
    uint64BE [0x80, 0, 0, 0, 0, 0, 0, 0] = 2 ^ 63
    ∧ readPayloadLen [0x80, 0, 0, 0, 0, 0, 0, 0, 1, 2, 3, 4] 127
        = .ok (-(2 ^ 63)) [1, 2, 3, 4]
    ∧ readerIter (readerInit [0x81, 0xFF, 0x80, 0, 0, 0, 0, 0, 0, 0, 1, 2, 3, 4])
        = (.panicked, { brw := [], message := [], emitted := [] }) := by
  decide

end Wsgo

namespace Wsgo

/-! ### Reassembly of masked frames -/

theorem intOfUint64_of_lt (n : Nat) (h : n < 2 ^ 63) : intOfUint64 n = (n : Int) := by
  unfold intOfUint64
  have h1 : n % 2 ^ 64 = n := Nat.mod_eq_of_lt (by omega)
  rw [h1, if_pos h]

theorem readPayloadLen_short (brw : List Nat) (len0 : Nat) (h : len0 ≤ 125) :
    readPayloadLen brw len0 = .ok (len0 : Nat) brw := by
  simp [readPayloadLen, payload0Max, h]

theorem readPayloadLen_ext16 (brw : List Nat) (s : Nat) (h : s < 2 ^ 16) :
    readPayloadLen (putUint16 s ++ brw) 126 = .ok (s : Nat) brw := by
  have hr := readBytes_append (putUint16 s) brw (by simp [putUint16, maxAlloc])
  have hl : ((putUint16 s).length : Int) = 2 := rfl
  rw [hl] at hr
  simp [readPayloadLen, payload0Max, payloadNext2Byte, hr, uint16BE_putUint16 s h]

theorem readPayloadLen_ext64 (brw : List Nat) (s : Nat) (h : s < 2 ^ 63) :
    readPayloadLen (putUint64 s ++ brw) 127 = .ok (s : Nat) brw := by
  have hr := readBytes_append (putUint64 s) brw (by simp [putUint64, maxAlloc])
  have hl : ((putUint64 s).length : Int) = 8 := rfl
  rw [hl] at hr
  have h64 : s < 2 ^ 64 := by omega
  simp [readPayloadLen, payload0Max, payloadNext2Byte, hr, uint64BE_putUint64 s h64,
    intOfUint64_of_lt s h]

/-- With length indicator 126 the payload length is the unsigned value of the next
two bytes. -/
theorem readPayloadLen_two_bytes (b0 b1 : Nat) (rest : List Nat) :
    readPayloadLen (b0 :: b1 :: rest) 126 = .ok ((b0 * 256 + b1 : Nat) : Int) rest := by
  simp [readPayloadLen, payload0Max, payloadNext2Byte, readBytes_two, uint16BE]

/-- With length indicator 127 the payload length is the next eight bytes converted
to `int`: their unsigned value below `2 ^ 63`, and that value minus `2 ^ 64`,
a negative number, from `2 ^ 63` on. -/
theorem readPayloadLen_eight_bytes (ext rest : List Nat) (hlen : ext.length = 8)
    (hbytes : ∀ b ∈ ext, b < 256) :
    readPayloadLen (ext ++ rest) 127
      = .ok (if uint64BE ext < 2 ^ 63 then (uint64BE ext : Int)
              else (uint64BE ext : Int) - 2 ^ 64) rest := by
  have hr := readBytes_append ext rest (by rw [hlen]; decide)
  rw [hlen] at hr
  have hlt : uint64BE ext < 2 ^ 64 := by
    match ext, hlen, hbytes with
    | [a, b, c, d, e, f, g, h], _, hb =>
      have ha := hb a (by simp)
      have hb1 := hb b (by simp)
      have hc := hb c (by simp)
      have hd := hb d (by simp)
      have he := hb e (by simp)
      have hf := hb f (by simp)
      have hg := hb g (by simp)
      have hh := hb h (by simp)
      simp only [uint64BE, List.getD_cons_zero, List.getD_cons_succ]
      omega
  have hmod : uint64BE ext % 2 ^ 64 = uint64BE ext := Nat.mod_eq_of_lt hlt
  have hr8 : readBytes (ext ++ rest) 8 = .ok ext rest := hr
  have hconv : intOfUint64 (uint64BE ext)
      = if uint64BE ext < 2 ^ 63 then (uint64BE ext : Int)
          else (uint64BE ext : Int) - 2 ^ 64 := by
    unfold intOfUint64
    rw [hmod]
  rw [← hconv]
  simp [readPayloadLen, payload0Max, payloadNext2Byte, hr8]

theorem length_maskPayload (key payload : List Nat) :
    (maskPayload key payload).length = payload.length := by
  simp [maskPayload]

/-- The unmasking loop of the reader, written position by position. -/
theorem unmaskFrom_eq_map (key : List Nat) (i : Nat) (bytes : List Nat) :
    unmaskFrom key i bytes
      = (List.range bytes.length).map
          (fun j => bytes.getD j 0 ^^^ key.getD ((i + j) % 4) 0) := by
  induction bytes generalizing i with
  | nil => rfl
  | cons b bs ih =>
    rw [unmaskFrom, ih, List.length_cons, List.range_succ_eq_map, List.map_cons, List.map_map]
    simp only [List.getD_cons_zero, Nat.add_zero, List.cons.injEq, true_and]
    apply List.map_congr_left
    intro j _
    simp only [Function.comp, List.getD_cons_succ]
    congr 3
    omega

/-- The reader's unmasking step undoes the masking of the protocol. -/
theorem unmask_maskPayload (key payload : List Nat) :
    unmask key (maskPayload key payload) = payload := by
  have h : maskPayload key payload = unmask key payload := by
    unfold unmask maskPayload
    rw [unmaskFrom_eq_map]
    simp
  rw [h]
  exact unmaskFrom_unmaskFrom key 0 payload

/-- What the header of a well-formed masked frame decodes to: the payload length,
and the stream after the header and extended length. -/
theorem wire_header (f : MaskedFrame) (hwf : f.WellFormed) (rest : List Nat) :
    ∃ b1 tail, f.wire ++ rest = f.first :: b1 :: tail ∧ isMasked ≤ b1
      ∧ readPayloadLen tail (b1 - isMasked)
          = .ok (f.payload.length : Nat)
              (f.key ++ (maskPayload f.key f.payload ++ rest)) := by
  obtain ⟨_, _, _, _, hlen⟩ := hwf
  unfold MaskedFrame.wire
  cases hform : f.form with
  | short =>
    rw [hform] at hlen
    refine ⟨isMasked + f.payload.length, f.key ++ (maskPayload f.key f.payload ++ rest),
      by simp, by omega, ?_⟩
    rw [Nat.add_sub_cancel_left]
    exact readPayloadLen_short _ _ hlen
  | ext16 =>
    rw [hform] at hlen
    refine ⟨isMasked + payloadNext2Byte,
      putUint16 f.payload.length ++ (f.key ++ (maskPayload f.key f.payload ++ rest)),
      by simp, by omega, ?_⟩
    rw [Nat.add_sub_cancel_left]
    exact readPayloadLen_ext16 _ _ hlen
  | ext64 =>
    rw [hform] at hlen
    refine ⟨isMasked + payloadNext8Byte,
      putUint64 f.payload.length ++ (f.key ++ (maskPayload f.key f.payload ++ rest)),
      by simp, by omega, ?_⟩
    rw [Nat.add_sub_cancel_left]
    exact readPayloadLen_ext64 _ _ (by unfold maxAlloc at hlen; omega)

/-- One iteration of the loop on a stream that starts with a well-formed masked
frame that is not a close frame. -/
theorem readerIter_frame (f : MaskedFrame) (hwf : f.WellFormed)
    (hop : fragmentType f.first ≠ connectionCloseFragment)
    (rest buf : List Nat) (ev : List Event) :
    readerIter { brw := f.wire ++ rest, message := buf, emitted := ev }
      = if f.fin then
          (.running,
            { brw := rest, message := [], emitted := ev ++ [.message (buf ++ f.payload)] })
        else (.running, { brw := rest, message := buf ++ f.payload, emitted := ev }) := by
  obtain ⟨b1, tail, hw, hb1, hlen⟩ := wire_header f hwf rest
  have hkey : readBytes (f.key ++ (maskPayload f.key f.payload ++ rest)) 4
      = .ok f.key (maskPayload f.key f.payload ++ rest) := by
    have := readBytes_append f.key (maskPayload f.key f.payload ++ rest)
      (by rw [hwf.2.1]; decide)
    rwa [hwf.2.1] at this
  have hbound : f.payload.length ≤ maxAlloc := by
    have h := hwf.2.2.2.2
    cases hform : f.form <;> rw [hform] at h <;> simp only at h <;> unfold maxAlloc at * <;> omega
  have hpay : readBytes (maskPayload f.key f.payload ++ rest) (f.payload.length : Nat)
      = .ok (maskPayload f.key f.payload) rest := by
    have := readBytes_append (maskPayload f.key f.payload) rest
      (by rw [length_maskPayload]; exact hbound)
    rwa [length_maskPayload] at this
  unfold readerIter
  dsimp only
  rw [hw, readBytes_two]
  dsimp only [List.getD_cons_zero, List.getD_cons_succ]
  rw [if_neg hop, if_neg (by omega), hlen]
  dsimp only
  rw [hkey]
  dsimp only
  rw [hpay]
  dsimp only
  rw [unmask_maskPayload]
  rfl

end Wsgo

namespace Wsgo

/-- Once the stream is used up every iteration fails on the header read: the loop
keeps running and no "message" event is added. -/
theorem reader_exhausted (n : Nat) (buf : List Nat) (ev : List Event) :
    (reader n { brw := [], message := buf, emitted := ev }).1 = .running
    ∧ messageEvents (reader n { brw := [], message := buf, emitted := ev }).2.emitted
        = messageEvents ev := by
  induction n generalizing ev with
  | zero => exact ⟨rfl, rfl⟩
  | succ n ih =>
    have hit : readerIter { brw := [], message := buf, emitted := ev }
        = (.running, { brw := [], message := buf, emitted := ev ++ [.error .eof] }) := by
      simp [readerIter, readBytes, readFull, maxAlloc]
    rw [reader, hit]
    dsimp only
    obtain ⟨h1, h2⟩ := ih (ev ++ [.error .eof])
    refine ⟨h1, ?_⟩
    rw [h2, messageEvents_append]
    simp [messageEvents]

/-- The loop on the stream of a sequence of well-formed non-close frames, started
with the payloads of the open run `cur` in the buffer. -/
theorem reader_frames (fs : List MaskedFrame)
    (hwf : ∀ f ∈ fs, f.WellFormed ∧ fragmentType f.first ≠ connectionCloseFragment)
    (cur : List MaskedFrame) (ev : List Event) (n : Nat) :
    (reader n ⟨wireOf fs, (cur.map MaskedFrame.payload).flatten, ev⟩).1 = .running
    ∧ messageEvents
          (reader n ⟨wireOf fs, (cur.map MaskedFrame.payload).flatten, ev⟩).2.emitted
        = messageEvents ev
          ++ (completeRunsFrom cur (fs.take n)).map
              (fun run => (run.map MaskedFrame.payload).flatten) := by
  induction fs generalizing cur ev n with
  | nil =>
    have h := reader_exhausted n (cur.map MaskedFrame.payload).flatten ev
    simpa [wireOf, completeRunsFrom] using h
  | cons f fs ih =>
    cases n with
    | zero => simp [reader, completeRunsFrom]
    | succ n =>
      have hf := hwf f (List.mem_cons_self _ _)
      have hfs : ∀ g ∈ fs, g.WellFormed ∧ fragmentType g.first ≠ connectionCloseFragment :=
        fun g hg => hwf g (List.mem_cons_of_mem _ hg)
      have hw : wireOf (f :: fs) = f.wire ++ wireOf fs := by simp [wireOf]
      rw [reader, hw, readerIter_frame f hf.1 hf.2]
      by_cases hfin : f.fin = true
      · rw [if_pos hfin]
        dsimp only
        have h := ih hfs [] (ev ++ [.message ((cur.map MaskedFrame.payload).flatten
          ++ f.payload)]) n
        simp only [List.map_nil, List.flatten_nil] at h
        refine ⟨h.1, ?_⟩
        rw [h.2, messageEvents_append]
        simp [messageEvents, completeRunsFrom, hfin]
      · rw [if_neg hfin]
        dsimp only
        have h := ih hfs (cur ++ [f]) ev n
        simp only [List.map_append, List.map_cons, List.map_nil, List.flatten_append,
          List.flatten_cons, List.flatten_nil, List.append_nil] at h
        refine ⟨h.1, ?_⟩
        rw [h.2]
        simp [completeRunsFrom, hfin]

theorem completeRunsFrom_cons_open (cur fs : List MaskedFrame) (f : MaskedFrame)
    (h : f.fin = false) :
    completeRunsFrom cur (f :: fs) = completeRunsFrom (cur ++ [f]) fs := by
  simp [completeRunsFrom, h]

theorem completeRunsFrom_no_fin (cur fs : List MaskedFrame) (h : ∀ f ∈ fs, f.fin = false) :
    completeRunsFrom cur fs = [] := by
  induction fs generalizing cur with
  | nil => rfl
  | cons f fs ih =>
    rw [completeRunsFrom_cons_open cur fs f (h f (List.mem_cons_self _ _))]
    exact ih _ (fun g hg => h g (List.mem_cons_of_mem _ hg))

theorem completeRunsFrom_single (cur body : List MaskedFrame) (last : MaskedFrame)
    (h : ∀ f ∈ body, f.fin = false) (hl : last.fin = true) :
    completeRunsFrom cur (body ++ [last]) = [cur ++ body ++ [last]] := by
  induction body generalizing cur with
  | nil => simp [completeRunsFrom, hl]
  | cons f fs ih =>
    rw [List.cons_append, completeRunsFrom_cons_open _ _ f (h f (List.mem_cons_self _ _)),
      ih _ (fun g hg => h g (List.mem_cons_of_mem _ hg))]
    simp

/-- C1. Reassembly in the receive loop: on the byte stream that carries a
sequence of well-formed frames, each with its payload masked under its key as
the protocol prescribes and none a close frame, the loop keeps running and after
any number `n` of iterations the "message" events emitted are, in order, the
concatenated payloads, as they were before masking, of the complete runs (maximal
runs of consecutive frames ending in a fin frame) among the first `n` frames.  In
particular, for frames of which only the last has fin set, no "message" event is
emitted while fewer iterations than frames have run, and from then on there is
exactly one, carrying the concatenation of all the payloads. -/
theorem reader_reassembly (fs : List MaskedFrame)
    (hwf : ∀ f ∈ fs, f.WellFormed ∧ fragmentType f.first ≠ connectionCloseFragment) :
    (∀ n, (reader n (readerInit (wireOf fs))).1 = .running
      ∧ messageEvents (reader n (readerInit (wireOf fs))).2.emitted
          = expectedMessages (fs.take n))
    ∧ (∀ body last, fs = body ++ [last] → (∀ f ∈ body, f.fin = false) → last.fin = true →
        (∀ n, n < fs.length →
          messageEvents (reader n (readerInit (wireOf fs))).2.emitted = [])
        ∧ (∀ n, fs.length ≤ n →
          messageEvents (reader n (readerInit (wireOf fs))).2.emitted
            = [(fs.map MaskedFrame.payload).flatten])) := by
  have main : ∀ n, (reader n (readerInit (wireOf fs))).1 = .running
      ∧ messageEvents (reader n (readerInit (wireOf fs))).2.emitted
          = expectedMessages (fs.take n) := by
    intro n
    have h := reader_frames fs hwf [] [] n
    simpa [readerInit, expectedMessages, messageEvents] using h
  refine ⟨main, ?_⟩
  intro body last hfs hbody hlast
  constructor
  · intro n hn
    rw [(main n).2, hfs]
    have hn' : n ≤ body.length := by
      rw [hfs] at hn
      simp at hn
      omega
    rw [List.take_append_of_le_length hn']
    unfold expectedMessages
    rw [completeRunsFrom_no_fin [] _ (fun f hf => hbody f (List.mem_of_mem_take hf))]
    rfl
  · intro n hn
    rw [(main n).2, List.take_of_length_le hn]
    unfold expectedMessages
    rw [hfs, completeRunsFrom_single [] body last hbody hlast]
    simp

end Wsgo

namespace Wsgo

theorem reader_reassembly_witness :
    (∀ f ∈ ([⟨0x01, .short, [1, 2, 3, 4], [10, 20, 30]⟩,
              ⟨0x80, .ext16, [5, 6, 7, 8], [1, 1]⟩] : List MaskedFrame),
        f.WellFormed ∧ fragmentType f.first ≠ connectionCloseFragment)
    ∧ ∀ n, (reader n (readerInit (wireOf [⟨0x01, .short, [1, 2, 3, 4], [10, 20, 30]⟩,
              ⟨0x80, .ext16, [5, 6, 7, 8], [1, 1]⟩]))).1 = .running
      ∧ messageEvents (reader n (readerInit (wireOf [⟨0x01, .short, [1, 2, 3, 4], [10, 20, 30]⟩,
              ⟨0x80, .ext16, [5, 6, 7, 8], [1, 1]⟩]))).2.emitted
          = expectedMessages
              (([⟨0x01, .short, [1, 2, 3, 4], [10, 20, 30]⟩,
                 ⟨0x80, .ext16, [5, 6, 7, 8], [1, 1]⟩] : List MaskedFrame).take n) :=
  ⟨by decide,
    (reader_reassembly [⟨0x01, .short, [1, 2, 3, 4], [10, 20, 30]⟩,
      ⟨0x80, .ext16, [5, 6, 7, 8], [1, 1]⟩] (by decide)).1⟩

/-! ### Parsing the frames of a message back -/

theorem parseFrame_of_header (b0 b1 : Nat) (tail payload rest : List Nat)
    (h : readPayloadLen tail (b1 % 128) = .ok (payload.length : Nat) (payload ++ rest)) :
    parseFrame (b0 :: b1 :: tail) = some (valueOfBit b0 7, payload, rest) := by
  unfold parseFrame
  rw [readBytes_two]
  dsimp only [List.getD_cons_zero, List.getD_cons_succ]
  rw [h]
  dsimp only
  rw [if_neg (by omega), Int.toNat_ofNat, readFull_append]

theorem fin_firstByte (c k : Nat) :
    valueOfBit (((if (k : Int) = (c : Int) - 1 then finalFragmentOfMessage else 0)
      + (if k = 0 then 1 else 0)) % 256) 7 = decide (k + 1 = c) := by
  have hc : ((k : Int) = (c : Int) - 1) ↔ k + 1 = c := by omega
  by_cases h1 : k + 1 = c <;> by_cases h2 : k = 0
  · simp only [if_pos (hc.2 h1), if_pos h2, h1, decide_True]; decide
  · simp only [if_pos (hc.2 h1), if_neg h2, h1, decide_True]; decide
  · simp only [if_neg (fun h => h1 (hc.1 h)), if_pos h2, h1, decide_False]; decide
  · simp only [if_neg (fun h => h1 (hc.1 h)), if_neg h2, h1, decide_False]; decide

theorem fragmentHeader_shape (c k : Nat) (chunk rest : List Nat) (h : chunk.length < 2 ^ 63) :
    ∃ b0 b1 ext, fragmentHeader c k chunk.length = b0 :: b1 :: ext
      ∧ valueOfBit b0 7 = decide (k + 1 = c)
      ∧ readPayloadLen (ext ++ (chunk ++ rest)) (b1 % 128)
          = .ok (chunk.length : Nat) (chunk ++ rest) := by
  unfold fragmentHeader
  simp only [payload0Max, byte2MaxValue, payloadNext2Byte, payloadNext8Byte]
  by_cases h1 : chunk.length ≤ 125
  · rw [if_pos h1]
    refine ⟨_, chunk.length % 256, [], rfl, fin_firstByte c k, ?_⟩
    have hmod : chunk.length % 256 % 128 = chunk.length := by omega
    rw [hmod]
    exact readPayloadLen_short _ _ h1
  · rw [if_neg h1]
    by_cases h2 : chunk.length ≤ 65535
    · rw [if_pos h2]
      have hmod : chunk.length % 2 ^ 16 = chunk.length := Nat.mod_eq_of_lt (by omega)
      rw [hmod]
      exact ⟨_, 126, putUint16 chunk.length, rfl, fin_firstByte c k,
        readPayloadLen_ext16 _ _ (by omega)⟩
    · rw [if_neg h2]
      have hmod : chunk.length % 2 ^ 64 = chunk.length := Nat.mod_eq_of_lt (by omega)
      rw [hmod]
      exact ⟨_, 127, putUint64 chunk.length, rfl, fin_firstByte c k,
        readPayloadLen_ext64 _ _ h⟩

theorem parseFrame_fragmentAt (m : Nat) (msg : List Nat) (hint : m < 2 ^ 63) (k : Nat)
    (rest : List Nat) :
    ∃ b0 tl, fragmentAt m msg k ++ rest = b0 :: tl
      ∧ parseFrame (b0 :: tl)
          = some (decide (k + 1 = fragmentCountOf msg.length m), chunkAt m msg k, rest) := by
  have hlen : (chunkAt m msg k).length < 2 ^ 63 := by rw [length_chunkAt]; omega
  obtain ⟨b0, b1, ext, hshape, hfin, hread⟩ :=
    fragmentHeader_shape (fragmentCountOf msg.length m) k (chunkAt m msg k) rest hlen
  refine ⟨b0, b1 :: (ext ++ (chunkAt m msg k ++ rest)), ?_, ?_⟩
  · unfold fragmentAt
    rw [hshape]
    simp
  · rw [parseFrame_of_header b0 b1 _ _ rest hread, hfin]

theorem parseFramesFuel_fragments (m : Nat) (msg : List Nat) (hint : m < 2 ^ 63)
    (ks : List Nat) (fuel : Nat) (hfuel : ks.length ≤ fuel) :
    parseFramesFuel fuel ((ks.map (fragmentAt m msg)).flatten)
      = some (ks.map
          (fun k => (decide (k + 1 = fragmentCountOf msg.length m), chunkAt m msg k))) := by
  induction ks generalizing fuel with
  | nil => cases fuel <;> rfl
  | cons k ks ih =>
    cases fuel with
    | zero => simp at hfuel
    | succ fuel =>
      obtain ⟨b0, tl, hcons, hparse⟩ :=
        parseFrame_fragmentAt m msg hint k ((ks.map (fragmentAt m msg)).flatten)
      rw [List.map_cons, List.flatten_cons, hcons, parseFramesFuel, hparse]
      dsimp only
      rw [ih fuel (by simpa using hfuel)]
      rfl

theorem length_fragments_ge (m : Nat) (msg : List Nat) (ks : List Nat) :
    ks.length ≤ ((ks.map (fragmentAt m msg)).flatten).length := by
  induction ks with
  | nil => simp
  | cons k ks ih =>
    have h2 : 1 ≤ (fragmentAt m msg k).length := by
      unfold fragmentAt fragmentHeader
      simp only [List.length_append]
      split
      · simp; omega
      · split <;> simp <;> omega
    simp only [List.map_cons, List.flatten_cons, List.length_append, List.length_cons]
    omega

/-- C6. Encode/decode round trip: for a non-empty message and a maximum fragment
size `m ≥ 1`, the bytes of the frames of `toFragments`, parsed with the header
rule of the receive loop, are used up exactly; the frames recovered are those
produced, payload for payload; only the last one has fin set; and the recovered
payloads in order make up the message. -/
theorem toFragments_parse_roundtrip (m : Nat) (message : List Nat) (hm : 1 ≤ m)
    (hint : m < 2 ^ 63) (hne : message ≠ []) :
    ∃ body last,
      parseFrames (toFragments m message).flatten
        = some (body.map (fun p => (false, p)) ++ [(true, last)])
      ∧ (toFragments m message).map framePayload = body ++ [last]
      ∧ (body ++ [last]).flatten = message := by
  have hpos : 0 < fragmentCountOf message.length m := by
    apply (lt_fragmentCountOf_iff _ _ _ hm).2
    have := List.length_pos.2 hne
    omega
  obtain ⟨c, hc⟩ : ∃ c, fragmentCountOf message.length m = c + 1 :=
    ⟨fragmentCountOf message.length m - 1, by omega⟩
  refine ⟨(List.range c).map (chunkAt m message), chunkAt m message c, ?_, ?_, ?_⟩
  · unfold parseFrames
    rw [toFragments_eq_map m message hm,
      parseFramesFuel_fragments m message hint _ _ (length_fragments_ge m message _), hc,
      List.range_succ]
    simp only [List.map_append, List.map_cons, List.map_nil, List.map_map, decide_True]
    congr 2
    apply List.map_congr_left
    intro k hk
    have : k < c := List.mem_range.1 hk
    simp only [Function.comp]
    rw [decide_eq_false (by omega)]
  · rw [toFragments_eq_map m message hm, hc, List.map_map]
    have hfun : framePayload ∘ fragmentAt m message = chunkAt m message := by
      funext i
      exact framePayload_fragmentAt m message i
    rw [hfun, List.range_succ]
    simp
  · have h := flatten_chunks m message (c + 1)
    rw [List.range_succ, List.map_append] at h
    rw [show [chunkAt m message c] = List.map (chunkAt m message) [c] from rfl, h, ← hc]
    exact List.take_of_length_le (fragmentCountOf_mul_ge _ _ hm)

theorem toFragments_parse_roundtrip_witness :
    1 ≤ 2 ∧ 2 < 2 ^ 63 ∧ ([7, 8, 9] : List Nat) ≠ []
    ∧ ∃ body last,
      parseFrames (toFragments 2 [7, 8, 9]).flatten
        = some (body.map (fun p => (false, p)) ++ [(true, last)])
      ∧ (toFragments 2 [7, 8, 9]).map framePayload = body ++ [last]
      ∧ (body ++ [last]).flatten = [7, 8, 9] :=
  ⟨by decide, by decide, by decide,
    toFragments_parse_roundtrip 2 [7, 8, 9] (by decide) (by decide) (by decide)⟩

end Wsgo

namespace Wsgo

/-! ## The dispatcher in memory -/

theorem getD_set_self {L : Type} (arrays : List (List L)) (i : Nat) (c : List L)
    (h : i < arrays.length) : (arrays.set i c).getD i [] = c := by
  rw [List.getD_eq_getElem?_getD, List.getElem?_set_self h]
  rfl

theorem getD_set_ne {L : Type} (arrays : List (List L)) (i j : Nat) (c : List L)
    (h : i ≠ j) : (arrays.set i c).getD j [] = arrays.getD j [] := by
  rw [List.getD_eq_getElem?_getD, List.getElem?_set_ne h, ← List.getD_eq_getElem?_getD]

theorem getD_append_new {L : Type} (arrays : List (List L)) (c : List L) :
    (arrays ++ [c]).getD arrays.length [] = c := by
  rw [List.getD_eq_getElem?_getD, List.getElem?_concat_length]
  rfl

/-- Writing `xs` after the window `[off, off + len)` extends what the window
reads by `xs`. -/
theorem overwrite_read {L : Type} (cells : List L) (off len : Nat) (xs : List L)
    (h : off + len ≤ cells.length) :
    ((overwrite cells (off + len) xs).drop off).take (len + xs.length)
      = (cells.drop off).take len ++ xs := by
  unfold overwrite
  have h1 : (cells.take (off + len)).length = off + len := by
    rw [List.length_take]; omega
  rw [List.append_assoc, List.drop_append_of_le_length (by omega), List.drop_take]
  have h2 : (List.take (off + len - off) (List.drop off cells)).length = len := by
    rw [List.length_take, List.length_drop]; omega
  have h3 : off + len - off = len := by omega
  rw [h3] at h2 ⊢
  rw [← List.append_assoc, List.take_append_of_le_length (by simp [h2])]
  have h4 : (List.take len (List.drop off cells) ++ xs).length = len + xs.length := by
    rw [List.length_append, h2]
  rw [← h4]
  exact List.take_length _

theorem overwrite_length {L : Type} (cells : List L) (p : Nat) (xs : List L)
    (h : p ≤ cells.length) : p + xs.length ≤ (overwrite cells p xs).length := by
  unfold overwrite
  simp only [List.length_append, List.length_take, List.length_drop]
  omega

/-- What a slice reads is unchanged by a write below its array list's end in
another array. -/
theorem read_congr {L : Type} (ee ee' : EventEmitter L) (t : Slice)
    (h : ee'.arrays.getD t.arr [] = ee.arrays.getD t.arr []) : ee'.read t = ee.read t := by
  unfold EventEmitter.read
  rw [h]

theorem length_read {L : Type} (ee : EventEmitter L) (s : Slice)
    (h : s.off + s.len ≤ (ee.arrays.getD s.arr []).length) : (ee.read s).length = s.len := by
  unfold EventEmitter.read
  rw [List.length_take, List.length_drop]
  omega

/-- The built-in `append` on a slice that lies in the written part of its array:
the slice returned reads the old elements followed by the new, it lies in the
written part of its array, and every other array is as it was. -/
theorem append_spec {L : Type} (grow : Nat → Nat → Nat) (hgrow : ∀ c n, n ≤ grow c n)
    (ee : EventEmitter L) (s : Slice) (xs : List L)
    (harr : s.arr < ee.arrays.length)
    (hwin : s.off + s.len ≤ (ee.arrays.getD s.arr []).length) :
    (ee.append grow s xs).1.read (ee.append grow s xs).2 = ee.read s ++ xs
    ∧ (ee.append grow s xs).2.arr < (ee.append grow s xs).1.arrays.length
    ∧ (ee.append grow s xs).2.off + (ee.append grow s xs).2.len
        ≤ ((ee.append grow s xs).1.arrays.getD (ee.append grow s xs).2.arr []).length
    ∧ (ee.append grow s xs).2.len ≤ (ee.append grow s xs).2.cap
    ∧ ee.arrays.length ≤ (ee.append grow s xs).1.arrays.length
    ∧ (ee.append grow s xs).1.events = ee.events
    ∧ ((ee.append grow s xs).2.arr = s.arr
        ∨ (ee.append grow s xs).2.arr = ee.arrays.length)
    ∧ (∀ i, i < ee.arrays.length → i ≠ s.arr →
        (ee.append grow s xs).1.arrays.getD i [] = ee.arrays.getD i []) := by
  unfold EventEmitter.append
  by_cases hfit : s.len + xs.length ≤ s.cap
  · rw [if_pos hfit]
    dsimp only
    have hget := getD_set_self ee.arrays s.arr
      (overwrite (ee.arrays.getD s.arr []) (s.off + s.len) xs) harr
    refine ⟨?_, ?_, ?_, hfit, ?_, rfl, Or.inl rfl, ?_⟩
    · unfold EventEmitter.read
      dsimp only
      rw [hget]
      exact overwrite_read _ _ _ _ hwin
    · rw [List.length_set]; exact harr
    · rw [hget]
      have := overwrite_length (ee.arrays.getD s.arr []) (s.off + s.len) xs hwin
      omega
    · rw [List.length_set]
    · intro i _ hne
      exact getD_set_ne _ _ _ _ (fun h => hne h.symm)
  · rw [if_neg hfit]
    dsimp only
    have hlen := length_read ee s hwin
    refine ⟨?_, ?_, ?_, hgrow _ _, ?_, rfl, Or.inr rfl, ?_⟩
    · unfold EventEmitter.read
      dsimp only
      rw [getD_append_new]
      have : s.len + xs.length = (ee.read s ++ xs).length := by
        rw [List.length_append, hlen]
      simp only [List.drop_zero]
      rw [this]
      exact List.take_length _
    · simp
    · rw [getD_append_new, List.length_append, hlen]
      omega
    · simp
    · intro i hi _
      exact List.getD_append _ _ _ _ hi

end Wsgo

namespace Wsgo

theorem Registry.ext_events {L : Type} (a b : Registry L)
    (h : ∀ k, a.events k = b.events k) : a = b := by
  cases a
  cases b
  simp only [Registry.mk.injEq]
  exact funext h

/-- `On` with a slice that lies in the written part of an array no key uses, on an
emitter whose keys share no array: the keys still share no array, and the
registry is that of `On` on the registry, with the elements of the slice. -/
theorem EventEmitter.On_view {L : Type} (grow : Nat → Nat → Nat)
    (hgrow : ∀ c n, n ≤ grow c n) (ee : EventEmitter L) (key : String) (ls : Slice)
    (hv : ee.Valid) (hu : ee.Unshared)
    (harr : ls.arr < ee.arrays.length)
    (hwin : ls.off + ls.len ≤ (ee.arrays.getD ls.arr []).length) (hcap : ls.len ≤ ls.cap)
    (hnew : ∀ k s, ee.events k = some s → s.arr ≠ ls.arr) :
    (ee.On grow key ls).Valid ∧ (ee.On grow key ls).Unshared
    ∧ (ee.On grow key ls).view = ee.view.On key (ee.read ls) := by
  unfold EventEmitter.On
  cases hk : ee.events key with
  | none =>
    dsimp only
    refine ⟨?_, ?_, ?_⟩
    · intro k s hs
      simp only [EventEmitter.store] at hs
      by_cases hkk : k = key
      · rw [if_pos hkk] at hs
        injection hs with hs
        subst hs
        exact ⟨harr, hwin, hcap⟩
      · rw [if_neg hkk] at hs
        exact hv k s hs
    · intro k1 k2 s1 s2 hne h1 h2
      simp only [EventEmitter.store] at h1 h2
      by_cases hk1 : k1 = key
      · have hk2 : k2 ≠ key := fun h => hne (hk1.trans h.symm)
        rw [if_pos hk1] at h1
        rw [if_neg hk2] at h2
        injection h1 with h1
        subst h1
        exact fun h => hnew k2 s2 h2 h.symm
      · rw [if_neg hk1] at h1
        by_cases hk2 : k2 = key
        · rw [if_pos hk2] at h2
          injection h2 with h2
          subst h2
          exact hnew k1 s1 h1
        · rw [if_neg hk2] at h2
          exact hu k1 k2 s1 s2 hne h1 h2
    · have hvk : ee.view.events key = none := by simp [EventEmitter.view, hk]
      have hon : ee.view.On key (ee.read ls) = ee.view.store key (ee.read ls) := by
        unfold Registry.On
        rw [hvk]
      rw [hon]
      apply Registry.ext_events
      intro k
      show ((ee.store key ls).events k).map (ee.store key ls).read
        = (ee.view.store key (ee.read ls)).events k
      by_cases hkk : k = key
      · simp only [EventEmitter.store, Registry.store, if_pos hkk, Option.map_some']
        rfl
      · simp only [EventEmitter.store, Registry.store, if_neg hkk]
        rfl
  | some s =>
    dsimp only
    obtain ⟨hs1, hs2, hs3⟩ := hv key s hk
    obtain ⟨hread, ha, hw, hc, hlen, hev, hor, hother⟩ :=
      append_spec grow hgrow ee s (ee.read ls) hs1 hs2
    have hkeep : ∀ k t, k ≠ key → ee.events k = some t →
        (ee.append grow s (ee.read ls)).1.arrays.getD t.arr [] = ee.arrays.getD t.arr [] := by
      intro k t hne ht
      exact hother t.arr (hv k t ht).1 (hu k key t s hne ht hk)
    refine ⟨?_, ?_, ?_⟩
    · intro k t ht
      simp only [EventEmitter.store] at ht
      by_cases hkk : k = key
      · rw [if_pos hkk] at ht
        injection ht with ht
        subst ht
        exact ⟨ha, hw, hc⟩
      · rw [if_neg hkk, hev] at ht
        obtain ⟨h1, h2, h3⟩ := hv k t ht
        refine ⟨by exact Nat.lt_of_lt_of_le h1 hlen, ?_, h3⟩
        show t.off + t.len ≤ ((ee.append grow s (ee.read ls)).1.arrays.getD t.arr []).length
        rw [hkeep k t hkk ht]
        exact h2
    · intro k1 k2 s1 s2 hne h1 h2
      simp only [EventEmitter.store] at h1 h2
      by_cases hk1 : k1 = key
      · have hk2 : k2 ≠ key := fun h => hne (hk1.trans h.symm)
        rw [if_pos hk1] at h1
        rw [if_neg hk2, hev] at h2
        injection h1 with h1
        subst h1
        rcases hor with h | h
        · rw [h]
          exact hu key k2 s s2 (fun h => hk2 h.symm) hk h2
        · rw [h]
          exact fun h' => absurd (hv k2 s2 h2).1 (by omega)
      · rw [if_neg hk1, hev] at h1
        by_cases hk2 : k2 = key
        · rw [if_pos hk2] at h2
          injection h2 with h2
          subst h2
          rcases hor with h | h
          · rw [h]
            exact hu k1 key s1 s hk1 h1 hk
          · rw [h]
            exact fun h' => absurd (hv k1 s1 h1).1 (by omega)
        · rw [if_neg hk2, hev] at h2
          exact hu k1 k2 s1 s2 hne h1 h2
    · have hvk : ee.view.events key = some (ee.read s) := by simp [EventEmitter.view, hk]
      have hon : ee.view.On key (ee.read ls)
          = ee.view.store key (ee.read s ++ ee.read ls) := by
        unfold Registry.On
        rw [hvk]
      rw [hon]
      apply Registry.ext_events
      intro k
      show ((((ee.append grow s (ee.read ls)).1).store key
          (ee.append grow s (ee.read ls)).2).events k).map
            (ee.append grow s (ee.read ls)).1.read
        = (ee.view.store key (ee.read s ++ ee.read ls)).events k
      by_cases hkk : k = key
      · simp only [EventEmitter.store, Registry.store, if_pos hkk, Option.map_some']
        exact congrArg some hread
      · simp only [EventEmitter.store, Registry.store, if_neg hkk]
        rw [hev]
        show (ee.events k).map (ee.append grow s (ee.read ls)).1.read
          = (ee.events k).map ee.read
        cases ht : ee.events k with
        | none => rfl
        | some t =>
          simp only [Option.map_some']
          exact congrArg some (read_congr _ _ t (hkeep k t hkk ht))

end Wsgo

namespace Wsgo

/-- `On` called with the listeners as arguments, on an emitter whose keys share no
array: the keys still share no array, and the registry is that of `On` on the
registry. -/
theorem EventEmitter.OnArgs_view {L : Type} (grow : Nat → Nat → Nat)
    (hgrow : ∀ c n, n ≤ grow c n) (ee : EventEmitter L) (key : String) (args : List L)
    (hv : ee.Valid) (hu : ee.Unshared) :
    (ee.OnArgs grow key args).Valid ∧ (ee.OnArgs grow key args).Unshared
    ∧ (ee.OnArgs grow key args).view = ee.view.On key args := by
  have hv1 : ({ ee with arrays := ee.arrays ++ [args] } : EventEmitter L).Valid := by
    intro k s hs
    obtain ⟨h1, h2, h3⟩ := hv k s hs
    refine ⟨by simp only [List.length_append, List.length_singleton]; omega, ?_, h3⟩
    show s.off + s.len ≤ ((ee.arrays ++ [args]).getD s.arr []).length
    rw [List.getD_append _ _ _ _ h1]
    exact h2
  have hu1 : ({ ee with arrays := ee.arrays ++ [args] } : EventEmitter L).Unshared := hu
  have hview : ({ ee with arrays := ee.arrays ++ [args] } : EventEmitter L).view = ee.view := by
    apply Registry.ext_events
    intro k
    show (ee.events k).map ({ ee with arrays := ee.arrays ++ [args] } : EventEmitter L).read
      = (ee.events k).map ee.read
    cases hk : ee.events k with
    | none => rfl
    | some s =>
      simp only [Option.map_some']
      exact congrArg some (read_congr _ _ s (List.getD_append _ _ _ _ (hv k s hk).1))
  have hread : ({ ee with arrays := ee.arrays ++ [args] } : EventEmitter L).read
      { arr := ee.arrays.length, off := 0, len := args.length, cap := args.length } = args := by
    unfold EventEmitter.read
    dsimp only
    rw [getD_append_new, List.drop_zero, List.take_length]
  have h := EventEmitter.On_view grow hgrow
    ({ ee with arrays := ee.arrays ++ [args] } : EventEmitter L) key
    { arr := ee.arrays.length, off := 0, len := args.length, cap := args.length } hv1 hu1
    (by simp) (by dsimp only; rw [getD_append_new]; omega) (le_refl _)
    (fun k s hs => by
      have := (hv k s hs).1
      dsimp only
      omega)
  rw [hread, hview] at h
  exact h

theorem EventEmitter.New_view {L : Type} :
    (EventEmitter.New : EventEmitter L).Valid ∧ (EventEmitter.New : EventEmitter L).Unshared
    ∧ (EventEmitter.New : EventEmitter L).view = Registry.New := by
  refine ⟨?_, ?_, rfl⟩
  · intro k s hs
    simp [EventEmitter.New] at hs
  · intro k1 k2 s1 s2 _ h1
    simp [EventEmitter.New] at h1

theorem EventEmitter.Clear_view {L : Type} (ee : EventEmitter L) :
    ee.Clear.Valid ∧ ee.Clear.Unshared ∧ ee.Clear.view = ee.view.Clear := by
  refine ⟨?_, ?_, rfl⟩
  · intro k s hs
    simp [EventEmitter.Clear] at hs
  · intro k1 k2 s1 s2 _ h1
    simp [EventEmitter.Clear] at h1

/-- `Emit` calls what `Emit` on the registry calls. -/
theorem EventEmitter.Emit_view {L A σ : Type} (call : L → List A → σ → σ)
    (ee : EventEmitter L) (key : String) (args : List A) (st : σ) (hv : ee.Valid) :
    ee.Emit call key args st = ee.view.Emit call key args st := by
  unfold EventEmitter.Emit Registry.Emit EventEmitter.listeners Registry.listeners
  cases hk : ee.events key with
  | none => simp [EventEmitter.view, hk]
  | some s =>
    have hlen := length_read ee s (hv key s hk).2.1
    simp only [EventEmitter.view, hk, Option.map_some', hlen]
    by_cases hpos : s.len > 0
    · simp [hpos]
    · simp [hpos]

/-- After any sequence of `On` calls with the listeners as arguments, on a new
emitter, no two keys share an array and the registry is that of the same calls
on a new registry. -/
theorem EventEmitter.afterOnArgs_view {L : Type} (grow : Nat → Nat → Nat)
    (hgrow : ∀ c n, n ≤ grow c n) (ee : EventEmitter L) (calls : List (String × List L))
    (hv : ee.Valid) (hu : ee.Unshared) :
    (ee.afterOnArgs grow calls).Valid ∧ (ee.afterOnArgs grow calls).Unshared
    ∧ (ee.afterOnArgs grow calls).view = ee.view.afterOn calls := by
  induction calls generalizing ee with
  | nil => exact ⟨hv, hu, rfl⟩
  | cons c calls ih =>
    obtain ⟨h1, h2, h3⟩ := EventEmitter.OnArgs_view grow hgrow ee c.1 c.2 hv hu
    obtain ⟨h4, h5, h6⟩ := ih (ee.OnArgs grow c.1 c.2) h1 h2
    refine ⟨h4, h5, ?_⟩
    show ((ee.OnArgs grow c.1 c.2).afterOnArgs grow calls).view = (ee.view.On c.1 c.2).afterOn calls
    rw [h6, h3]

end Wsgo

namespace Wsgo

/-! ## The event dispatcher -/

theorem Registry.store_same {L : Type} (ee : Registry L) (key : String)
    (ls : List L) : (ee.store key ls).events key = some ls := by
  simp [Registry.store]

theorem Registry.store_other {L : Type} (ee : Registry L) (key k : String)
    (ls : List L) (h : k ≠ key) : (ee.store key ls).events k = ee.events k := by
  simp [Registry.store, h]

theorem Registry.On_same {L : Type} (ee : Registry L) (key : String) (ls : List L) :
    (ee.On key ls).events key = some ((ee.events key).getD [] ++ ls) := by
  unfold Registry.On
  cases h : ee.events key <;> simp [Registry.store_same]

theorem Registry.On_other {L : Type} (ee : Registry L) (key k : String) (ls : List L)
    (h : k ≠ key) : (ee.On key ls).events k = ee.events k := by
  unfold Registry.On
  cases ee.events key <;> simp [Registry.store_other _ _ _ _ h]

/-- After a sequence of `On` calls the slice of a key is what it was, followed by
the listeners registered for the key, in the order of registration. -/
theorem Registry.afterOn_events {L : Type} (ee : Registry L)
    (calls : List (String × List L)) (key : String) :
    ((ee.afterOn calls).events key).getD [] = (ee.events key).getD [] ++ registeredFor key calls := by
  induction calls generalizing ee with
  | nil => simp [Registry.afterOn, registeredFor]
  | cons c calls ih =>
    have hstep : ee.afterOn (c :: calls) = (ee.On c.1 c.2).afterOn calls := rfl
    rw [hstep, ih]
    by_cases hk : c.1 = key
    · subst hk
      simp [registeredFor, Registry.On_same]
    · have hk' : key ≠ c.1 := fun h => hk h.symm
      simp [registeredFor, hk, Registry.On_other _ _ _ _ hk']

theorem Registry.listeners_of_empty {L : Type} (ee : Registry L) (key : String)
    (h : (ee.events key).getD [] = []) :
    (ee.listeners key).2 = some .notListenerFound := by
  unfold Registry.listeners
  cases hk : ee.events key with
  | none => rfl
  | some ls =>
    rw [hk] at h
    simp only [Option.getD_some] at h
    subst h
    rfl

theorem Registry.listeners_of_cons {L : Type} (ee : Registry L) (key : String)
    (l : L) (ls : List L) (h : ee.events key = some (l :: ls)) :
    ee.listeners key = (l :: ls, none) := by
  unfold Registry.listeners
  rw [h]
  simp

theorem Registry.Emit_of_empty {L A σ : Type} (call : L → List A → σ → σ)
    (ee : Registry L) (key : String) (args : List A) (st : σ)
    (h : (ee.events key).getD [] = []) :
    ee.Emit call key args st = (some .notListenerFound, st) := by
  have hl := Registry.listeners_of_empty ee key h
  unfold Registry.Emit
  rcases hls : ee.listeners key with ⟨ls, err⟩
  rw [hls] at hl
  simp only at hl
  subst hl
  rfl

theorem Registry.Emit_of_cons {L A σ : Type} (call : L → List A → σ → σ)
    (ee : Registry L) (key : String) (args : List A) (st : σ) (l : L) (ls : List L)
    (h : ee.events key = some (l :: ls)) :
    ee.Emit call key args st
      = (none, (l :: ls).foldl (fun st listener => call listener args st) st) := by
  unfold Registry.Emit
  rw [Registry.listeners_of_cons ee key l ls h]

theorem foldl_recordCall {L A : Type} (ls : List L) (args : List A) (log : List (L × List A)) :
    ls.foldl (fun st listener => recordCall listener args st) log
      = log ++ ls.map (fun l => (l, args)) := by
  induction ls generalizing log with
  | nil => simp
  | cons l ls ih =>
    rw [List.foldl_cons, ih]
    simp [recordCall]

/-- `Emit` on a registry: with the key absent or its list empty it returns the
not-found error and calls nothing; otherwise it returns success and the calls it
makes are exactly the listeners of the key, in the order of the list, each with
the arguments given.  After any sequence of `On` calls on a new registry that
list is the listeners handed to `On` for the key, in the order of registration. -/
theorem Registry.Emit_registered {L A : Type} (ee : Registry L) (key : String)
    (args : List A) (log : List (L × List A)) :
    ((ee.events key = none ∨ ee.events key = some []) →
        ee.Emit recordCall key args log = (some .notListenerFound, log))
    ∧ (∀ ls, ee.events key = some ls → ls ≠ [] →
        ee.Emit recordCall key args log = (none, log ++ ls.map (fun l => (l, args))))
    ∧ (∀ calls : List (String × List L),
        (registeredFor key calls = [] →
          (Registry.New.afterOn calls).Emit recordCall key args log
            = (some .notListenerFound, log))
        ∧ (registeredFor key calls ≠ [] →
          (Registry.New.afterOn calls).Emit recordCall key args log
            = (none, log ++ (registeredFor key calls).map (fun l => (l, args))))) := by
  refine ⟨?_, ?_, ?_⟩
  · intro h
    apply Registry.Emit_of_empty
    rcases h with h | h <;> simp [h]
  · intro ls hls hne
    cases ls with
    | nil => exact absurd rfl hne
    | cons l ls =>
      rw [Registry.Emit_of_cons recordCall ee key args log l ls hls, foldl_recordCall]
  · intro calls
    have hev := Registry.afterOn_events (Registry.New : Registry L) calls key
    have hnew : ((Registry.New : Registry L).events key).getD [] = [] := rfl
    rw [hnew, List.nil_append] at hev
    constructor
    · intro hnil
      apply Registry.Emit_of_empty
      rw [hev]
      exact hnil
    · intro hne
      cases hk : ((Registry.New : Registry L).afterOn calls).events key with
      | none =>
        rw [hk] at hev
        exact absurd hev.symm hne
      | some registered =>
        rw [hk] at hev
        simp only [Option.getD_some] at hev
        rw [← hev]
        rw [← hev] at hne
        cases registered with
        | nil => exact absurd rfl hne
        | cons l ls =>
          rw [Registry.Emit_of_cons recordCall _ key args log l ls hk, foldl_recordCall]

end Wsgo

namespace Wsgo

theorem EventEmitter.indexOfFrom_none {L : Type} (pointer : L → String) (l : L) (i : Nat)
    (ls : List L) (h : ∀ x ∈ ls, pointer x ≠ pointer l) :
    EventEmitter.indexOfFrom pointer l i ls = -1 := by
  induction ls generalizing i with
  | nil => rfl
  | cons x xs ih =>
    have hx := h x (List.mem_cons_self _ _)
    rw [EventEmitter.indexOfFrom, if_neg hx]
    exact ih (i + 1) (fun y hy => h y (List.mem_cons_of_mem _ hy))

theorem EventEmitter.indexOfFrom_first {L : Type} (pointer : L → String) (l : L) (i : Nat)
    (pre : List L) (x : L) (post : List L) (hx : pointer x = pointer l)
    (hpre : ∀ y ∈ pre, pointer y ≠ pointer l) :
    EventEmitter.indexOfFrom pointer l i (pre ++ x :: post) = ((i + pre.length : Nat) : Int) := by
  induction pre generalizing i with
  | nil => simp [EventEmitter.indexOfFrom, hx]
  | cons y ys ih =>
    have hy := hpre y (List.mem_cons_self _ _)
    rw [List.cons_append, EventEmitter.indexOfFrom, if_neg hy,
      ih (i + 1) (fun z hz => hpre z (List.mem_cons_of_mem _ hz))]
    simp only [List.length_cons]
    congr 1
    omega

end Wsgo

namespace Wsgo

/-- After registrations made only by `On` calls with the listeners as arguments,
`Emit` does what the dispatcher is meant to do: not found when nothing was
registered for the key, otherwise one call of each listener registered for the
key, in the order of registration, with the arguments given. -/
theorem EventEmitter.Emit_afterOnArgs {L A : Type} (grow : Nat → Nat → Nat)
    (hgrow : ∀ c n, n ≤ grow c n) (calls : List (String × List L)) (key : String)
    (args : List A) (log : List (L × List A)) :
    (registeredFor key calls = [] →
      ((EventEmitter.New : EventEmitter L).afterOnArgs grow calls).Emit recordCall key args log
        = (some .notListenerFound, log))
    ∧ (registeredFor key calls ≠ [] →
      ((EventEmitter.New : EventEmitter L).afterOnArgs grow calls).Emit recordCall key args log
        = (none, log ++ (registeredFor key calls).map (fun l => (l, args)))) := by
  obtain ⟨hnv, hnu, hnview⟩ := (EventEmitter.New_view : _ ∧ _ ∧ (EventEmitter.New : EventEmitter L).view = _)
  obtain ⟨hv, _, hview⟩ := EventEmitter.afterOnArgs_view grow hgrow
    (EventEmitter.New : EventEmitter L) calls hnv hnu
  rw [EventEmitter.Emit_view recordCall _ key args log hv, hview, hnview]
  exact (Registry.Emit_registered (Registry.New : Registry L) key args log).2.2 calls

theorem read_head {L : Type} (ee : EventEmitter L) (s : Slice) (i : Nat) (h : i ≤ s.len) :
    ee.read { s with len := i } = (ee.read s).take i := by
  unfold EventEmitter.read
  dsimp only
  rw [List.take_take, Nat.min_eq_left h]

theorem read_tail {L : Type} (ee : EventEmitter L) (s : Slice) (j c : Nat) :
    ee.read { s with off := s.off + j, len := s.len - j, cap := c } = (ee.read s).drop j := by
  unfold EventEmitter.read
  dsimp only
  rw [List.drop_take, List.drop_drop]

/-- `Off` on an emitter whose keys share no array: the first listener of the key
that prints like the given one is removed, the others keep their order, and the
lists of the other keys are unchanged. -/
theorem EventEmitter.Off_unshared {L : Type} (grow : Nat → Nat → Nat)
    (hgrow : ∀ c n, n ≤ grow c n) (pointer : L → String) (ee : EventEmitter L)
    (key : String) (l : L) (hv : ee.Valid) (hu : ee.Unshared)
    (s : Slice) (hs : ee.events key = some s) (pre : List L) (x : L) (post : List L)
    (hread : ee.read s = pre ++ x :: post) (hx : pointer x = pointer l)
    (hpre : ∀ y ∈ pre, pointer y ≠ pointer l) :
    (ee.Off grow pointer key l).1 = none
    ∧ (ee.Off grow pointer key l).2.view.events key = some (pre ++ post)
    ∧ ∀ k, k ≠ key → (ee.Off grow pointer key l).2.view.events k = ee.view.events k := by
  obtain ⟨hs1, hs2, hs3⟩ := hv key s hs
  have hlen : s.len = pre.length + 1 + post.length := by
    rw [← length_read ee s hs2, hread]
    simp only [List.length_append, List.length_cons]
    omega
  have hlisten : ee.listeners key = (some s, none) := by
    unfold EventEmitter.listeners
    rw [hs]
    dsimp only
    rw [if_pos (by omega)]
  have hidx : EventEmitter.indexOf pointer (ee.read s) l = ((pre.length : Nat) : Int) := by
    unfold EventEmitter.indexOf
    rw [hread, EventEmitter.indexOfFrom_first pointer l 0 pre x post hx hpre]
    simp
  have hhead : ee.read { s with len := pre.length } = pre := by
    rw [read_head ee s pre.length (by omega), hread]
    exact List.take_left _ _
  have hdrop : (pre ++ x :: post).drop (pre.length + 1) = post := by
    have : pre ++ x :: post = (pre ++ [x]) ++ post := by simp
    rw [this]
    exact List.drop_left' (by simp)
  have htail := read_tail ee s (pre.length + 1) (s.cap - (pre.length + 1))
  rw [hread, hdrop] at htail
  obtain ⟨hr, _, _, _, _, hev, _, hother⟩ :=
    append_spec grow hgrow ee { s with len := pre.length } post hs1
      (by show s.off + pre.length ≤ (ee.arrays.getD s.arr []).length; omega)
  rw [hhead] at hr
  have hoff : ee.Off grow pointer key l
      = (none, ((ee.append grow { s with len := pre.length } post).1).store key
          (ee.append grow { s with len := pre.length } post).2) := by
    unfold EventEmitter.Off
    rw [hlisten]
    simp only [hidx]
    have hne : ¬ ((pre.length : Nat) : Int) = -1 := by omega
    rw [if_neg hne]
    simp only [Int.toNat_ofNat, htail]
  rw [hoff]
  refine ⟨rfl, ?_, ?_⟩
  · show ((((ee.append grow { s with len := pre.length } post).1).store key
        (ee.append grow { s with len := pre.length } post).2).events key).map
          (ee.append grow { s with len := pre.length } post).1.read = some (pre ++ post)
    simp only [EventEmitter.store, if_true, Option.map_some']
    exact congrArg some hr
  · intro k hk
    show ((((ee.append grow { s with len := pre.length } post).1).store key
        (ee.append grow { s with len := pre.length } post).2).events k).map
          (ee.append grow { s with len := pre.length } post).1.read = (ee.events k).map ee.read
    simp only [EventEmitter.store, if_neg hk]
    rw [hev]
    cases ht : ee.events k with
    | none => rfl
    | some t =>
      simp only [Option.map_some']
      exact congrArg some (read_congr _ _ t
        (hother t.arr (hv k t ht).1 (hu k key t s hk ht hs)))

/-- C12. `Emit` can call a listener registered for another key only and leave out
one registered for its own key: after `ee.On("a", ls...)` and `ee.On("b", ls...)`
with a slice `ls` holding `f` and having spare capacity, then `ee.On("a", g)` and
`ee.On("b", h)`, an `Emit` of "a" calls `f` and `h`, and `g` not at all, because
`On` keeps the caller's slice and appends in place. -/
theorem Emit_calls_other_key :
    sharedCapacityEmitter.Emit recordCall "a" [1] ([] : List (String × List Nat))
        = (none, [("f", [1]), ("h", [1])])
    ∧ sharedCapacityEmitter.view.events "a" = some ["f", "h"]
    ∧ sharedCapacityEmitter.view.events "b" = some ["f", "h"]
    ∧ registeredFor "a" [("a", ["f"]), ("b", ["f"]), ("a", ["g"]), ("b", ["h"])]
        = ["f", "g"] := by
  decide

/-- C13. `Off` can change the list of another key: after `ee.On("a", ls...)` and
`ee.On("b", ls...)` with the one slice `ls` holding `f`, `g`, `h`, the call
`ee.Off("a", f)` succeeds and leaves `g`, `h` for "a", and the list of "b",
which was `f`, `g`, `h`, is now `g`, `h`, `h`, because `Off` shifts the elements
in the array of the slice. -/
theorem Off_changes_other_key :
    sharedSliceEmitter.view.events "b" = some ["f", "g", "h"]
    ∧ (sharedSliceEmitter.Off (fun _ n => n) (fun l => l) "a" "f").1 = none
    ∧ (sharedSliceEmitter.Off (fun _ n => n) (fun l => l) "a" "f").2.view.events "a"
        = some ["g", "h"]
    ∧ (sharedSliceEmitter.Off (fun _ n => n) (fun l => l) "a" "f").2.view.events "b"
        = some ["g", "h", "h"] := by
  decide

end Wsgo

namespace Wsgo

/-! ## The socket and its dispatcher -/

theorem Socket.invoke_close_silent (onClose : Nat) (args : List Arg) (s : Socket) :
    (Socket.invoke (.close onClose) args s).Silent :=
  ⟨rfl, fun _ => rfl⟩

/-- A closure of `OnError` or `OnMessage` leaves `State` and the dispatcher alone. -/
theorem Socket.invoke_keeps (l : SocketListener) (args : List Arg) (s : Socket) :
    (Socket.invoke l args s).Silent
    ∨ ((Socket.invoke l args s).ee = s.ee ∧ (Socket.invoke l args s).State = s.State) := by
  cases l with
  | close onClose => exact Or.inl (Socket.invoke_close_silent onClose args s)
  | error onError =>
    right
    cases args with
    | nil => exact ⟨rfl, rfl⟩
    | cons a rest => cases a <;> exact ⟨rfl, rfl⟩
  | message onMessage =>
    right
    cases args with
    | nil => exact ⟨rfl, rfl⟩
    | cons a rest => cases a <;> exact ⟨rfl, rfl⟩

theorem Socket.invoke_silent (l : SocketListener) (args : List Arg) (s : Socket)
    (h : s.Silent) : (Socket.invoke l args s).Silent := by
  rcases Socket.invoke_keeps l args s with h1 | ⟨h1, h2⟩
  · exact h1
  · exact ⟨h2.trans h.1, fun key => by rw [h1]; exact h.2 key⟩

theorem Socket.foldl_invoke_silent (ls : List SocketListener) (args : List Arg) (s : Socket)
    (h : s.Silent) :
    (ls.foldl (fun st listener => Socket.invoke listener args st) s).Silent := by
  induction ls generalizing s with
  | nil => exact h
  | cons l ls ih => exact ih _ (Socket.invoke_silent l args s h)

theorem Socket.foldl_invoke_keeps (ls : List SocketListener) (args : List Arg) (s : Socket) :
    (ls.foldl (fun st listener => Socket.invoke listener args st) s).Silent
    ∨ ((ls.foldl (fun st listener => Socket.invoke listener args st) s).ee = s.ee
        ∧ (ls.foldl (fun st listener => Socket.invoke listener args st) s).State = s.State) := by
  induction ls generalizing s with
  | nil => exact Or.inr ⟨rfl, rfl⟩
  | cons l ls ih =>
    rw [List.foldl_cons]
    rcases Socket.invoke_keeps l args s with h1 | ⟨h1, h2⟩
    · exact Or.inl (Socket.foldl_invoke_silent ls args _ h1)
    · rcases ih (Socket.invoke l args s) with h3 | ⟨h3, h4⟩
      · exact Or.inl h3
      · exact Or.inr ⟨h3.trans h1, h4.trans h2⟩

theorem Socket.foldl_invoke_close (ls : List SocketListener) (args : List Arg) (s : Socket)
    (h : ∃ onClose, SocketListener.close onClose ∈ ls) :
    (ls.foldl (fun st listener => Socket.invoke listener args st) s).Silent := by
  induction ls generalizing s with
  | nil =>
    obtain ⟨_, hmem⟩ := h
    exact absurd hmem (List.not_mem_nil _)
  | cons l ls ih =>
    obtain ⟨onClose, hmem⟩ := h
    rw [List.foldl_cons]
    rcases List.mem_cons.1 hmem with hl | hl
    · rw [← hl]
      exact Socket.foldl_invoke_silent ls args _ (Socket.invoke_close_silent onClose args s)
    · exact ih _ ⟨onClose, hl⟩

theorem Socket.foldl_invoke_close_calls (ids : List Nat) (args : List Arg) (s : Socket) :
    ((ids.map SocketListener.close).foldl
        (fun st listener => Socket.invoke listener args st) s).calls
      = s.calls ++ ids.map Call.onClose := by
  induction ids generalizing s with
  | nil => simp
  | cons i ids ih =>
    rw [List.map_cons, List.foldl_cons, ih]
    simp [Socket.invoke, Socket._close]

/-- An emit on a socket whose dispatcher has nothing for the key: not found, no
listener called. -/
theorem Socket.eeEmit_not_found (s : Socket) (key : String) (args : List Arg)
    (h : (s.ee.events key).getD [] = []) :
    s.eeEmit key args
      = (some .notListenerFound, { s with emits := s.emits ++ [(key, args)] }) := by
  unfold Socket.eeEmit
  exact Registry.Emit_of_empty _ _ _ _ _ h

theorem Socket.eeEmit_found (s : Socket) (key : String) (args : List Arg)
    (l : SocketListener) (ls : List SocketListener) (h : s.ee.events key = some (l :: ls)) :
    s.eeEmit key args
      = (none, (l :: ls).foldl (fun st listener => Socket.invoke listener args st)
          { s with emits := s.emits ++ [(key, args)] }) := by
  unfold Socket.eeEmit
  exact Registry.Emit_of_cons _ _ _ _ _ l ls h

/-- An emit keeps a silent socket silent, and otherwise either makes the socket
silent or leaves `State` and the dispatcher as they were. -/
theorem Socket.eeEmit_keeps (s : Socket) (key : String) (args : List Arg) :
    (s.Silent → (s.eeEmit key args).2.Silent)
    ∧ ((s.eeEmit key args).2.Silent
        ∨ ((s.eeEmit key args).2.ee = s.ee ∧ (s.eeEmit key args).2.State = s.State)) := by
  cases hk : s.ee.events key with
  | none =>
    rw [Socket.eeEmit_not_found s key args (by simp [hk])]
    exact ⟨fun h => h, Or.inr ⟨rfl, rfl⟩⟩
  | some ls =>
    cases ls with
    | nil =>
      rw [Socket.eeEmit_not_found s key args (by simp [hk])]
      exact ⟨fun h => h, Or.inr ⟨rfl, rfl⟩⟩
    | cons l ls =>
      rw [Socket.eeEmit_found s key args l ls hk]
      constructor
      · intro h
        exact Socket.foldl_invoke_silent _ _ _ h
      · exact Socket.foldl_invoke_keeps _ _ _

/-- An emit of "close" on a socket with a closure of `OnClose` registered for
"close" makes the socket silent. -/
theorem Socket.eeEmit_close_silent (s : Socket) (args : List Arg) (ls : List SocketListener)
    (hreg : s.ee.events "close" = some ls) (hmem : ∃ onClose, SocketListener.close onClose ∈ ls) :
    (s.eeEmit "close" args).1 = none ∧ (s.eeEmit "close" args).2.Silent := by
  cases ls with
  | nil =>
    obtain ⟨_, h⟩ := hmem
    exact absurd h (List.not_mem_nil _)
  | cons l ls =>
    rw [Socket.eeEmit_found s "close" args l ls hreg]
    exact ⟨rfl, Socket.foldl_invoke_close _ _ _ hmem⟩

theorem Socket.deliver_keeps (s : Socket) (e : Event) :
    (s.Silent → (s.deliver e).Silent)
    ∧ ((s.deliver e).Silent ∨ ((s.deliver e).ee = s.ee ∧ (s.deliver e).State = s.State)) := by
  cases e <;> exact Socket.eeEmit_keeps s _ _

/-- After the emits of a trace the socket is silent or has the dispatcher it had. -/
theorem Socket.foldl_deliver_keeps (es : List Event) (s : Socket) :
    (s.Silent → (es.foldl Socket.deliver s).Silent)
    ∧ ((es.foldl Socket.deliver s).Silent ∨ (es.foldl Socket.deliver s).ee = s.ee) := by
  induction es generalizing s with
  | nil => exact ⟨fun h => h, Or.inr rfl⟩
  | cons e es ih =>
    rw [List.foldl_cons]
    constructor
    · intro h
      exact (ih _).1 ((Socket.deliver_keeps s e).1 h)
    · rcases (Socket.deliver_keeps s e).2 with h1 | ⟨h1, _⟩
      · exact Or.inl ((ih _).1 h1)
      · rcases (ih (s.deliver e)).2 with h2 | h2
        · exact Or.inl h2
        · exact Or.inr (h2.trans h1)

/-- When the loop has returned, the last emit of its trace is the "close" emit. -/
theorem reader_returned_trace (n : Nat) (t : ReaderState) (h : (reader n t).1 = .returned) :
    ∃ pre, (reader n t).2.emitted = pre ++ [.close] := by
  induction n generalizing t with
  | zero => exact absurd h (by simp [reader])
  | succ n ih =>
    rw [reader] at h ⊢
    rcases hit : readerIter t with ⟨st, t1⟩
    rw [hit] at h
    cases st with
    | running => exact ih t1 h
    | returned =>
      have h1 : (readerIter t).1 = .returned := by rw [hit]
      obtain ⟨c0, c1, r, hb, hc⟩ := readerIter_returned t h1
      rw [readerIter_close t c0 c1 r hb hc] at hit
      injection hit with _ h2
      exact ⟨t.emitted, by rw [← h2]⟩
    | panicked => exact absurd h (by simp)

end Wsgo

namespace Wsgo

theorem Socket.invoke_emits (l : SocketListener) (args : List Arg) (s : Socket) :
    (Socket.invoke l args s).emits = s.emits := by
  cases l with
  | close onClose => rfl
  | error onError =>
    cases args with
    | nil => rfl
    | cons a rest => cases a <;> rfl
  | message onMessage =>
    cases args with
    | nil => rfl
    | cons a rest => cases a <;> rfl

theorem Socket.foldl_invoke_emits (ls : List SocketListener) (args : List Arg) (s : Socket) :
    (ls.foldl (fun st listener => Socket.invoke listener args st) s).emits = s.emits := by
  induction ls generalizing s with
  | nil => rfl
  | cons l ls ih => rw [List.foldl_cons, ih, Socket.invoke_emits]

/-- Every emit adds itself, and nothing else, to the emits of the socket. -/
theorem Socket.eeEmit_emits (s : Socket) (key : String) (args : List Arg) :
    (s.eeEmit key args).2.emits = s.emits ++ [(key, args)] := by
  unfold Socket.eeEmit Registry.Emit
  split
  · rfl
  · exact Socket.foldl_invoke_emits _ _ _

/-- The method `Send` hands the fragments to the stream in order and touches
nothing else. -/
theorem Socket.Send_fields (s : Socket) (message : List Nat)
    (results : Nat → Option Nat × Option Nat) :
    (s.Send message results).emits = s.emits ∧ (s.Send message results).calls = s.calls
    ∧ (s.Send message results).State = s.State ∧ (s.Send message results).ee = s.ee
    ∧ (s.Send message results).written = s.written ++ toFragments s.writePayloadSize message := by
  unfold Socket.Send
  generalize toFragments s.writePayloadSize message = frags
  induction frags generalizing s with
  | nil => simp
  | cons f fs ih =>
    rw [List.foldl_cons]
    obtain ⟨h1, h2, h3, h4, h5⟩ := ih { s with written := s.written ++ [f] }
    exact ⟨h1, h2, h3, h4, by rw [h5]; simp⟩

/-- On a write failure `Close` makes the "error" emit with that failure and no
other emit. -/
theorem Socket.Close_write_failure (s : Socket) (code : Nat) (flushErr : Option Nat) :
    (s.Close (some code) flushErr).emits = s.emits ++ [("error", [.error (.stream code)])] := by
  unfold Socket.Close
  exact Socket.eeEmit_emits _ _ _

theorem Socket.step_silent (t : Socket) (op : SocketOp) (h : t.Silent) :
    (t.step op).Silent ∧ (t.step op).calls = t.calls := by
  have hemit : ∀ (u : Socket), u.Silent → ∀ key args,
      (u.eeEmit key args).2.Silent ∧ (u.eeEmit key args).2.calls = u.calls := by
    intro u hu key args
    rw [Socket.eeEmit_not_found u key args (by simp [hu.2 key])]
    exact ⟨hu, rfl⟩
  cases op with
  | deliver e => cases e <;> exact hemit t h _ _
  | close writeErr flushErr =>
    have hw : ({ t with written := t.written ++ [[136, 0]] } : Socket).Silent := h
    cases writeErr with
    | none => exact hemit _ hw _ _
    | some err => exact hemit _ hw _ _
  | send message results =>
    obtain ⟨_, h2, h3, h4, _⟩ := Socket.Send_fields t message results
    refine ⟨⟨?_, ?_⟩, h2⟩
    · exact h3.trans h.1
    · intro key
      show (t.Send message results).ee.events key = none
      rw [h4]
      exact h.2 key

theorem Socket.foldl_step_silent (ops : List SocketOp) (t : Socket) (h : t.Silent) :
    (ops.foldl Socket.step t).Silent ∧ (ops.foldl Socket.step t).calls = t.calls := by
  induction ops generalizing t with
  | nil => exact ⟨h, rfl⟩
  | cons op ops ih =>
    rw [List.foldl_cons]
    obtain ⟨h1, h2⟩ := Socket.step_silent t op h
    obtain ⟨h3, h4⟩ := ih _ h1
    exact ⟨h3, h4.trans h2⟩

/-- C11. With an `OnMessage` callback and no `OnClose` callback registered, a
`Close()` whose write succeeds, and likewise a close frame read by the receive
loop, leaves `State` at "Open", the callback in the dispatcher and the
connection open: `_close` is never called. -/
theorem close_without_OnClose :
    (((NewSocket 1).OnMessage 5).Close none none).State = "Open"
    ∧ (((NewSocket 1).OnMessage 5).Close none none).connClosed = false
    ∧ (((NewSocket 1).OnMessage 5).reader 1 [0x88, 0x80]).2.connClosed = false
    ∧ (((NewSocket 1).OnMessage 5).Close none none).ee.events "message" = some [.message 5]
    ∧ (((NewSocket 1).OnMessage 5).reader 1 [0x88, 0x80]).1 = .returned
    ∧ (((NewSocket 1).OnMessage 5).reader 1 [0x88, 0x80]).2.State = "Open"
    ∧ (((NewSocket 1).OnMessage 5).reader 1 [0x88, 0x80]).2.ee.events "message"
        = some [.message 5] := by
  decide

/-- The transition to closed when an `OnClose` callback is registered, whatever
else is registered: once the receive loop has read a close frame and returned,
and likewise after a `Close()` whose write succeeds, `State` is "Closed" and the
dispatcher holds no callbacks. -/
theorem closed_after_close (s : Socket) (ls : List SocketListener)
    (hreg : s.ee.events "close" = some ls)
    (hmem : ∃ onClose, SocketListener.close onClose ∈ ls) :
    (∀ fuel brw, (s.reader fuel brw).1 = .returned →
        (s.reader fuel brw).2.State = "Closed"
        ∧ ∀ key, (s.reader fuel brw).2.ee.events key = none)
    ∧ (∀ flushErr, (s.Close none flushErr).State = "Closed"
        ∧ ∀ key, (s.Close none flushErr).ee.events key = none) := by
  constructor
  · intro fuel brw hret
    obtain ⟨pre, hpre⟩ := reader_returned_trace fuel (readerInit brw) hret
    have hfold : (s.reader fuel brw).2 = (pre.foldl Socket.deliver s).deliver .close := by
      unfold Socket.reader
      simp only [hpre, List.foldl_append, List.foldl_cons, List.foldl_nil]
    rw [hfold]
    rcases (Socket.foldl_deliver_keeps pre s).2 with h | h
    · exact (Socket.deliver_keeps _ .close).1 h
    · exact (Socket.eeEmit_close_silent _ [.null] ls (by rw [h]; exact hreg) hmem).2
  · intro flushErr
    exact (Socket.eeEmit_close_silent { s with written := s.written ++ [[136, 0]] } [] ls
      hreg hmem).2

theorem closed_after_close_witness :
    (((NewSocket 1).OnMessage 5).OnClose 7).ee.events "close" = some [.close 7]
    ∧ (∃ onClose, SocketListener.close onClose ∈ [SocketListener.close 7])
    ∧ ∀ flushErr, ((((NewSocket 1).OnMessage 5).OnClose 7).Close none flushErr).State = "Closed"
        ∧ ∀ key,
          ((((NewSocket 1).OnMessage 5).OnClose 7).Close none flushErr).ee.events key = none :=
  ⟨by decide, ⟨7, by decide⟩,
    (closed_after_close (((NewSocket 1).OnMessage 5).OnClose 7) [.close 7] (by decide)
      ⟨7, by decide⟩).2⟩

/-- C17. `Close` checks the error of `brw.Write` and drops the error of
`brw.Flush()`: when the write is buffered and the flush fails, `Close` does what
it does on success.  It makes the "close" emit and no "error" emit, and on a
socket with an `OnError` and an `OnClose` callback the error callback is not
called, `State` becomes "Closed" and the dispatcher is cleared. -/
theorem Close_drops_flush_error (s : Socket) (code : Nat) :
    s.Close none (some code) = s.Close none none
    ∧ (s.Close none (some code)).emits = s.emits ++ [("close", [])]
    ∧ ((((NewSocket 1).OnError 2).OnClose 3).Close none (some code)).calls = [.onClose 3]
    ∧ ((((NewSocket 1).OnError 2).OnClose 3).Close none (some code)).State = "Closed"
    ∧ ((((NewSocket 1).OnError 2).OnClose 3).Close none (some code)).ee.events "error"
        = none := by
  refine ⟨rfl, ?_, rfl, rfl, rfl⟩
  unfold Socket.Close
  exact Socket.eeEmit_emits _ _ _

/-- C18. `Send` drops the errors of `brw.Write` and `brw.Flush()`: whatever they
return for each fragment, `Send` makes no emit and calls no callback; it only
hands the fragments to the stream. -/
theorem Send_reports_nothing (s : Socket) (message : List Nat)
    (results : Nat → Option Nat × Option Nat) :
    (s.Send message results).emits = s.emits
    ∧ (s.Send message results).calls = s.calls
    ∧ (s.Send message results).written = s.written ++ toFragments s.writePayloadSize message
    ∧ (((NewSocket 1).OnError 2).Send [104, 105] (fun _ => (some 9, some 9))).emits = []
    ∧ (((NewSocket 1).OnError 2).Send [104, 105] (fun _ => (some 9, some 9))).calls = [] := by
  obtain ⟨h1, h2, _, _, h5⟩ := Socket.Send_fields s message results
  exact ⟨h1, h2, h5, by decide, by decide⟩

/-- C20. Silence after close: on a socket whose "close" callbacks are those of
the `OnClose` calls `ids`, at least one, an emit of "close" succeeds and calls
every one of them, in order; afterwards the dispatcher holds nothing, and as long
as nothing new is registered every later emit of the receive loop, of `Close` or
of anything else returns not-found and calls no callback. -/
theorem silence_after_close (s : Socket) (ids : List Nat) (hids : ids ≠ [])
    (hreg : s.ee.events "close" = some (ids.map SocketListener.close)) (args : List Arg) :
    (s.eeEmit "close" args).1 = none
    ∧ (s.eeEmit "close" args).2.calls = s.calls ++ ids.map Call.onClose
    ∧ (s.eeEmit "close" args).2.State = "Closed"
    ∧ (∀ key, (s.eeEmit "close" args).2.ee.events key = none)
    ∧ (∀ ops : List SocketOp,
        (ops.foldl Socket.step (s.eeEmit "close" args).2).calls
            = (s.eeEmit "close" args).2.calls
        ∧ ∀ key args',
          ((ops.foldl Socket.step (s.eeEmit "close" args).2).eeEmit key args').1
              = some .notListenerFound
          ∧ ((ops.foldl Socket.step (s.eeEmit "close" args).2).eeEmit key args').2.calls
              = (s.eeEmit "close" args).2.calls) := by
  obtain ⟨i, rest, hshape⟩ : ∃ i rest, ids = i :: rest := by
    cases ids with
    | nil => exact absurd rfl hids
    | cons i rest => exact ⟨i, rest, rfl⟩
  have hmem : ∃ onClose, SocketListener.close onClose ∈ ids.map SocketListener.close :=
    ⟨i, by rw [hshape]; simp⟩
  obtain ⟨hok, hsilent⟩ := Socket.eeEmit_close_silent s args _ hreg hmem
  have hcalls : (s.eeEmit "close" args).2.calls = s.calls ++ ids.map Call.onClose := by
    have hreg' := hreg
    rw [hshape, List.map_cons] at hreg'
    rw [Socket.eeEmit_found s "close" args _ _ hreg', ← List.map_cons, ← hshape]
    exact Socket.foldl_invoke_close_calls ids args _
  refine ⟨hok, hcalls, hsilent.1, hsilent.2, ?_⟩
  intro ops
  obtain ⟨h1, h2⟩ := Socket.foldl_step_silent ops _ hsilent
  refine ⟨h2, ?_⟩
  intro key args'
  rw [Socket.eeEmit_not_found _ key args' (by simp [h1.2 key])]
  exact ⟨rfl, h2⟩

theorem silence_after_close_witness :
    ([7, 8] : List Nat) ≠ []
    ∧ (((NewSocket 1).OnClose 7).OnClose 8).ee.events "close"
        = some (([7, 8] : List Nat).map SocketListener.close)
    ∧ ((((NewSocket 1).OnClose 7).OnClose 8).eeEmit "close" []).1 = none
    ∧ ((((NewSocket 1).OnClose 7).OnClose 8).eeEmit "close" []).2.calls
        = (((NewSocket 1).OnClose 7).OnClose 8).calls ++ ([7, 8] : List Nat).map Call.onClose :=
  ⟨by decide, by decide,
    (silence_after_close (((NewSocket 1).OnClose 7).OnClose 8) [7, 8] (by decide) (by decide)
      []).1,
    (silence_after_close (((NewSocket 1).OnClose 7).OnClose 8) [7, 8] (by decide) (by decide)
      []).2.1⟩

end Wsgo

namespace Wsgo

/-! ## The handshake -/

/-- C14. Handshake validation, on a response on which no status has been written
yet: when the Upgrade header is not exactly "websocket", or the Sec-WebSocket-Key
header is absent or empty, the status written is 400, no header is set, no
socket is made and no "connection" callback is called; otherwise the status
written is 101, sent with the headers Upgrade: WebSocket, Connection: Upgrade and
Sec-WebSocket-Accept: the value of `generateWebSocketKey` on the client key. -/
theorem Upgrade_validation (ws : WebSocket) (w : ResponseWriter) (r : Request)
    (hijackErr : Option Nat) (id : Nat) (hfresh : w.status = none) :
    ((r.upgrade ≠ "websocket" ∨ r.secWebSocketKey = "") →
        (ws.Upgrade w r hijackErr id).w.status = some 400
        ∧ (ws.Upgrade w r hijackErr id).w.header = w.header
        ∧ (ws.Upgrade w r hijackErr id).w.sent "Sec-WebSocket-Accept"
            = w.header "Sec-WebSocket-Accept"
        ∧ (ws.Upgrade w r hijackErr id).socket.isNone = true
        ∧ (ws.Upgrade w r hijackErr id).connection = [])
    ∧ ((r.upgrade = "websocket" ∧ r.secWebSocketKey ≠ "") →
        (ws.Upgrade w r hijackErr id).w.status = some 101
        ∧ (ws.Upgrade w r hijackErr id).w.sent "Upgrade" = some "WebSocket"
        ∧ (ws.Upgrade w r hijackErr id).w.sent "Connection" = some "Upgrade"
        ∧ (ws.Upgrade w r hijackErr id).w.sent "Sec-WebSocket-Accept"
            = some (generateWebSocketKey r.secWebSocketKey)) := by
  have h400 : (w.WriteHeader 400).status = some 400 ∧ (w.WriteHeader 400).header = w.header
      ∧ (w.WriteHeader 400).sent = w.header := by
    simp [ResponseWriter.WriteHeader, hfresh]
  constructor
  · intro h
    unfold WebSocket.Upgrade
    by_cases hu : r.upgrade = "websocket"
    · have hk : r.secWebSocketKey = "" := by
        rcases h with h | h
        · exact absurd hu h
        · exact h
      simp only [hu, hk, if_true]
      exact ⟨h400.1, h400.2.1, by rw [h400.2.2], by simp⟩
    · simp only [hu, if_false]
      exact ⟨h400.1, h400.2.1, by rw [h400.2.2], by simp⟩
  · rintro ⟨hu, hk⟩
    unfold WebSocket.Upgrade
    simp only [hu, hk, if_true, if_false]
    cases hijackErr <;>
      simp [ResponseWriter.WriteHeader, ResponseWriter.set, hfresh]

theorem Upgrade_validation_witness :
    ResponseWriter.fresh.status = none
    ∧ ((NewWebSocket.OnConnection 3).Upgrade ResponseWriter.fresh
          { upgrade := "WebSocket", secWebSocketKey := "dGhlIHNhbXBsZSBub25jZQ==" } none 7).w.status
        = some 400
    ∧ ((NewWebSocket.OnConnection 3).Upgrade ResponseWriter.fresh
          { upgrade := "websocket", secWebSocketKey := "dGhlIHNhbXBsZSBub25jZQ==" } none 7).w.sent
          "Sec-WebSocket-Accept"
        = some (generateWebSocketKey "dGhlIHNhbXBsZSBub25jZQ==") :=
  ⟨rfl,
    ((Upgrade_validation (NewWebSocket.OnConnection 3) ResponseWriter.fresh
      { upgrade := "WebSocket", secWebSocketKey := "dGhlIHNhbXBsZSBub25jZQ==" } none 7 rfl).1
      (Or.inl (by decide))).1,
    ((Upgrade_validation (NewWebSocket.OnConnection 3) ResponseWriter.fresh
      { upgrade := "websocket", secWebSocketKey := "dGhlIHNhbXBsZSBub25jZQ==" } none 7 rfl).2
      ⟨rfl, by decide⟩).2.2.2⟩

set_option maxRecDepth 1000000 in
/-- SHA-1 of "abc" (FIPS 180 test vector). -/
theorem sha1Sum_abc :
    sha1Sum (utf8Bytes "abc")
      = [0xa9, 0x99, 0x3e, 0x36, 0x47, 0x06, 0x81, 0x6a, 0xba, 0x3e,
         0x25, 0x71, 0x78, 0x50, 0xc2, 0x6c, 0x9c, 0xd0, 0xd8, 0x9d] := by
  decide

/-- The base64 test vectors of RFC 4648. -/
theorem base64Encode_vectors :
    String.mk (base64Encode (utf8Bytes "foobar")) = "Zm9vYmFy"
    ∧ String.mk (base64Encode (utf8Bytes "fooba")) = "Zm9vYmE="
    ∧ String.mk (base64Encode (utf8Bytes "foob")) = "Zm9vYg==" := by
  decide

set_option maxRecDepth 1000000 in
/-- C15. Accept token: `generateWebSocketKey` is the standard base64 encoding of
the SHA-1 digest of the client key followed by
"258EAFA5-E914-47DA-95CA-C5AB0DC85B11", and on the key
"dGhlIHNhbXBsZSBub25jZQ==" it gives "s3pPLMBiTxaQ9kYGzzhZRbK+xOo=". -/
theorem generateWebSocketKey_accept :
    (∀ clientKey : String,
      generateWebSocketKey clientKey
        = String.mk (base64Encode (sha1Sum
            (utf8Bytes clientKey ++ utf8Bytes "258EAFA5-E914-47DA-95CA-C5AB0DC85B11"))))
    ∧ generateWebSocketKey "dGhlIHNhbXBsZSBub25jZQ==" = "s3pPLMBiTxaQ9kYGzzhZRbK+xOo=" := by
  constructor
  · intro clientKey
    unfold generateWebSocketKey utf8Bytes
    simp only [String.toList, String.data_append, List.flatMap_append]
  · decide

end Wsgo

namespace Wsgo

/-! ## Panics and read failures of the receive loop -/

theorem uint64BE_lt (ext : List Nat) (hlen : ext.length = 8) (hbytes : ∀ b ∈ ext, b < 256) :
    uint64BE ext < 2 ^ 64 := by
  match ext, hlen, hbytes with
  | [a, b, c, d, e, f, g, h], _, hb =>
    have ha := hb a (by simp)
    have hb1 := hb b (by simp)
    have hc := hb c (by simp)
    have hd := hb d (by simp)
    have he := hb e (by simp)
    have hf := hb f (by simp)
    have hg := hb g (by simp)
    have hh := hb h (by simp)
    simp only [uint64BE, List.getD_cons_zero, List.getD_cons_succ]
    omega

theorem reader_of_not_running (fuel : Nat) (s s' : ReaderState) (st : Status)
    (hit : readerIter s = (st, s')) (hst : st ≠ .running) :
    reader (fuel + 1) s = (st, s') := by
  rw [reader, hit]
  cases st with
  | running => exact absurd rfl hst
  | returned => rfl
  | panicked => rfl

/-- C16. The receive loop can panic: on a masked header that is not a close
header, with length indicator 127 and eight length bytes whose top bit is set,
followed by four key bytes, the count handed to `readBytes` for the payload is
negative, `make([]byte, n)` panics, and the loop ends in that panic. -/
theorem reader_panics_on_negative_length (s : ReaderState) (b0 : Nat)
    (ext key rest : List Nat)
    (hbrw : s.brw = b0 :: 255 :: (ext ++ (key ++ rest)))
    (hop : fragmentType b0 ≠ connectionCloseFragment)
    (hext : ext.length = 8) (hbytes : ∀ b ∈ ext, b < 256) (htop : 2 ^ 63 ≤ uint64BE ext)
    (hkey : key.length = 4) :
    (∃ n : Int, n < 0
      ∧ readPayloadLen (ext ++ (key ++ rest)) (255 - isMasked) = .ok n (key ++ rest)
      ∧ readBytes rest n = .panicked)
    ∧ ∀ fuel, (reader (fuel + 1) s).1 = .panicked := by
  have hlt := uint64BE_lt ext hext hbytes
  have hneg : ((uint64BE ext : Nat) : Int) - 2 ^ 64 < 0 := by omega
  have hlen : readPayloadLen (ext ++ (key ++ rest)) (255 - isMasked)
      = .ok (((uint64BE ext : Nat) : Int) - 2 ^ 64) (key ++ rest) := by
    have h := readPayloadLen_eight_bytes ext (key ++ rest) hext hbytes
    rw [if_neg (by omega)] at h
    exact h
  have hpanic : readBytes rest (((uint64BE ext : Nat) : Int) - 2 ^ 64) = .panicked := by
    unfold readBytes
    rw [if_pos (Or.inl hneg)]
  refine ⟨⟨_, hneg, hlen, hpanic⟩, ?_⟩
  intro fuel
  have hkeyread : readBytes (key ++ rest) 4 = .ok key rest := by
    have := readBytes_append key rest (by rw [hkey]; decide)
    rwa [hkey] at this
  have hit : readerIter s = (.panicked, { s with brw := rest }) := by
    unfold readerIter
    rw [hbrw, readBytes_two]
    dsimp only [List.getD_cons_zero, List.getD_cons_succ]
    rw [if_neg hop, if_neg (by decide), hlen]
    dsimp only
    rw [hkeyread]
    dsimp only
    rw [hpanic]
  rw [reader_of_not_running fuel s _ _ hit (by decide)]

theorem reader_panics_on_negative_length_witness :
    (readerInit [0x81, 255, 0xFF, 0xFF, 0xFF, 0xFF, 0xFF, 0xFF, 0xFF, 0xFF, 1, 2, 3, 4, 9]).brw
        = 0x81 :: 255 :: ([0xFF, 0xFF, 0xFF, 0xFF, 0xFF, 0xFF, 0xFF, 0xFF] ++ ([1, 2, 3, 4] ++ [9]))
    ∧ fragmentType 0x81 ≠ connectionCloseFragment
    ∧ 2 ^ 63 ≤ uint64BE [0xFF, 0xFF, 0xFF, 0xFF, 0xFF, 0xFF, 0xFF, 0xFF]
    ∧ ∀ fuel, (reader (fuel + 1) (readerInit
        [0x81, 255, 0xFF, 0xFF, 0xFF, 0xFF, 0xFF, 0xFF, 0xFF, 0xFF, 1, 2, 3, 4, 9])).1
          = .panicked :=
  ⟨rfl, by decide, by decide,
    (reader_panics_on_negative_length
      (readerInit [0x81, 255, 0xFF, 0xFF, 0xFF, 0xFF, 0xFF, 0xFF, 0xFF, 0xFF, 1, 2, 3, 4, 9])
      0x81 [0xFF, 0xFF, 0xFF, 0xFF, 0xFF, 0xFF, 0xFF, 0xFF] [1, 2, 3, 4] [9] rfl (by decide) rfl
      (by decide) (by decide) rfl).2⟩

/-- A length that is positive and above what `make` allocates panics as well: a
masked header with length indicator 127 and the eight length bytes
`40 00 00 00 00 00 00 00`, that is `2 ^ 62`. -/
theorem reader_panics_on_huge_length :
    readerIter (readerInit [0x81, 0xFF, 0x40, 0, 0, 0, 0, 0, 0, 0, 1, 2, 3, 4, 9, 9])
      = (.panicked, { brw := [9, 9], message := [], emitted := [] }) := by
  decide

theorem errorCount_replicate_eof (n : Nat) :
    errorCount (List.replicate n (Event.error Err.eof)) = n := by
  induction n with
  | zero => rfl
  | succ n ih => simp [List.replicate_succ, errorCount, ih]

theorem messageEvents_replicate_eof (n : Nat) :
    messageEvents (List.replicate n (Event.error Err.eof)) = [] := by
  induction n with
  | zero => rfl
  | succ n ih => simp [List.replicate_succ, messageEvents, ih]

theorem reader_on_exhausted (n : Nat) (buf : List Nat) (ev : List Event) :
    reader n { brw := [], message := buf, emitted := ev }
      = (.running,
          { brw := [], message := buf, emitted := ev ++ List.replicate n (.error .eof) }) := by
  induction n generalizing ev with
  | zero => simp [reader]
  | succ n ih =>
    have hit : readerIter { brw := [], message := buf, emitted := ev }
        = (.running, { brw := [], message := buf, emitted := ev ++ [.error .eof] }) := by
      simp [readerIter, readBytes, readFull, maxAlloc]
    rw [reader, hit]
    dsimp only
    rw [ih, List.replicate_succ]
    simp

/-- C19. Read failures never stop the receive loop.  An iteration in which a
read fails, be it the read of the header, of the extended length, of the mask
key or of the payload, emits that one error, keeps the reassembly buffer and
goes on to the next iteration.  On an exhausted stream `n` further iterations
add `n` "error" events and no "message" event, and the loop is still running. -/
theorem reader_read_failure (s : ReaderState) :
    (∀ err r, readBytes s.brw 2 = .fail err r →
        readerIter s
          = (.running, { brw := r, message := s.message, emitted := s.emitted ++ [.error err] }))
    ∧ (∀ b0 b1 rest err r, s.brw = b0 :: b1 :: rest →
        fragmentType b0 ≠ connectionCloseFragment → isMasked ≤ b1 →
        readPayloadLen rest (b1 - isMasked) = .fail err r →
        readerIter s
          = (.running, { brw := r, message := s.message, emitted := s.emitted ++ [.error err] }))
    ∧ (∀ b0 b1 rest payloadLen rest1 err r, s.brw = b0 :: b1 :: rest →
        fragmentType b0 ≠ connectionCloseFragment → isMasked ≤ b1 →
        readPayloadLen rest (b1 - isMasked) = .ok payloadLen rest1 →
        readBytes rest1 4 = .fail err r →
        readerIter s
          = (.running, { brw := r, message := s.message, emitted := s.emitted ++ [.error err] }))
    ∧ (∀ b0 b1 rest payloadLen rest1 mask rest2 err r, s.brw = b0 :: b1 :: rest →
        fragmentType b0 ≠ connectionCloseFragment → isMasked ≤ b1 →
        readPayloadLen rest (b1 - isMasked) = .ok payloadLen rest1 →
        readBytes rest1 4 = .ok mask rest2 →
        readBytes rest2 payloadLen = .fail err r →
        readerIter s
          = (.running, { brw := r, message := s.message, emitted := s.emitted ++ [.error err] }))
    ∧ (∀ n, reader n { brw := [], message := s.message, emitted := s.emitted }
          = (.running, { brw := [], message := s.message,
                         emitted := s.emitted ++ List.replicate n (.error .eof) })
        ∧ errorCount (s.emitted ++ List.replicate n (.error .eof)) = errorCount s.emitted + n
        ∧ messageEvents (s.emitted ++ List.replicate n (.error .eof))
            = messageEvents s.emitted) := by
  refine ⟨?_, ?_, ?_, ?_, ?_⟩
  · intro err r h
    unfold readerIter
    rw [h]
  · intro b0 b1 rest err r hbrw hop hmask hlen
    unfold readerIter
    rw [hbrw, readBytes_two]
    dsimp only [List.getD_cons_zero, List.getD_cons_succ]
    rw [if_neg hop, if_neg (by omega), hlen]
  · intro b0 b1 rest payloadLen rest1 err r hbrw hop hmask hlen hkey
    unfold readerIter
    rw [hbrw, readBytes_two]
    dsimp only [List.getD_cons_zero, List.getD_cons_succ]
    rw [if_neg hop, if_neg (by omega), hlen]
    dsimp only
    rw [hkey]
  · intro b0 b1 rest payloadLen rest1 mask rest2 err r hbrw hop hmask hlen hkey hpay
    unfold readerIter
    rw [hbrw, readBytes_two]
    dsimp only [List.getD_cons_zero, List.getD_cons_succ]
    rw [if_neg hop, if_neg (by omega), hlen]
    dsimp only
    rw [hkey]
    dsimp only
    rw [hpay]
  · intro n
    refine ⟨reader_on_exhausted n s.message s.emitted, ?_, ?_⟩
    · rw [errorCount_append, errorCount_replicate_eof]
    · rw [messageEvents_append, messageEvents_replicate_eof, List.append_nil]

theorem reader_read_failure_witness :
    readBytes ({ brw := [0x81, 0x85, 1, 2, 3, 4, 7], message := [5], emitted := [] }
        : ReaderState).brw 2 = .ok [0x81, 0x85] [1, 2, 3, 4, 7]
    ∧ readBytes [7] 5 = .fail .unexpectedEOF []
    ∧ readerIter { brw := [0x81, 0x85, 1, 2, 3, 4, 7], message := [5], emitted := [] }
        = (.running, { brw := [], message := [5], emitted := [.error .unexpectedEOF] }) :=
  ⟨by decide, by decide,
    (reader_read_failure
      { brw := [0x81, 0x85, 1, 2, 3, 4, 7], message := [5], emitted := [] }).2.2.2.1
      0x81 0x85 [1, 2, 3, 4, 7] 5 [1, 2, 3, 4, 7] [1, 2, 3, 4] [7] .unexpectedEOF []
      rfl (by decide) (by decide) (by decide) (by decide) (by decide)⟩

end Wsgo
